import Mathlib

/-!
Verification of the sentence splitter (src/lib.rs).

The Rust source is shallowly embedded below.  The scanner works on
`Vec<char>`, modelled as `List Char`.  The Rust standard-library character
classification methods (`char::is_uppercase`, `char::is_numeric`,
`char::is_whitespace`) are modelled by a record of boolean predicates
`CharClasses`; the universal theorems are proved for arbitrary predicates
(with the few whitespace facts they need as explicit hypotheses), and a
concrete instance `rustCC` (exact on the character set exercised by the
claims) is used for concrete evaluations.  The `while` loop of
`SentenceSplitter::split` advances its index by at least one per
iteration, so it is embedded with an explicit fuel argument that the
top-level entry point instantiates with the character count, which is
always sufficient.
-/

/-- Record of the character classification predicates used by the source
(`char::is_uppercase`, `char::is_numeric`, `char::is_whitespace`). -/
structure CharClasses where
  isUppercase : Char → Bool
  isNumeric : Char → Bool
  isWhitespace : Char → Bool

/-- Unicode White_Space property, the semantics of Rust `char::is_whitespace`:
the 25 code points with White_Space=yes. -/
def rsIsWhitespace (c : Char) : Bool :=
  (0x09 ≤ c.toNat && c.toNat ≤ 0x0d) || c.toNat = 0x20 || c.toNat = 0x85 ||
  c.toNat = 0xa0 || c.toNat = 0x1680 ||
  (0x2000 ≤ c.toNat && c.toNat ≤ 0x200a) ||
  c.toNat = 0x2028 || c.toNat = 0x2029 || c.toNat = 0x202f ||
  c.toNat = 0x205f || c.toNat = 0x3000

/-- Rust `char::is_uppercase`, modelled on the ASCII range (every character
in the claims' concrete inputs is ASCII; the universal theorems hold for
arbitrary predicates). -/
def rsIsUppercase (c : Char) : Bool :=
  'A' ≤ c && c ≤ 'Z'

/-- Rust `char::is_numeric`, modelled on the ASCII range (every character
in the claims' concrete inputs is ASCII; the universal theorems hold for
arbitrary predicates). -/
def rsIsNumeric (c : Char) : Bool :=
  '0' ≤ c && c ≤ '9'

/-- The concrete character classes of the Rust standard library. -/
def rustCC : CharClasses :=
  { isUppercase := rsIsUppercase, isNumeric := rsIsNumeric,
    isWhitespace := rsIsWhitespace }

/-- Kind of a non-breaking abbreviation entry (`enum PrefixType`). -/
inductive PrefixType where
  | Default
  | NumericOnly
deriving DecidableEq, Repr

/-- Error type of the crate (`enum SentenceSplitterError`).  `IoError` and
`RegexError` carry their payloads in the source; the payloads play no role
in any claim and are dropped here. -/
inductive SplitterError where
  | InvalidLanguageCode (code : String)
  | PrefixFileNotFound (path : String)
  | IoError
  | RegexError
deriving DecidableEq, Repr

/-- The splitter (`struct SentenceSplitter`).  The `HashMap<String, PrefixType>`
is modelled as an association list; insertion conses at the head, and
`List.lookup` returns the most recent binding, matching `HashMap::insert`
overwrite semantics. -/
structure Splitter where
  nonBreakingPrefixes : List (String × PrefixType)
deriving DecidableEq, Repr

/-- Character class `[\p{Lu}\-]` of `ACRONYM_RE`: an uppercase letter or a
hyphen. -/
def isAcroChar (cc : CharClasses) (c : Char) : Bool :=
  cc.isUppercase c || c == '-'

/-- Scanner for the tail of `[\p{Lu}\-]+\.` once at least one class character
has been consumed: succeeds at the first literal dot reached through class
characters. -/
def acroTail (cc : CharClasses) : List Char → Bool
  | [] => false
  | c :: rest => if c == '.' then true else if isAcroChar cc c then acroTail cc rest else false

/-- Matcher for `[\p{Lu}\-]+\.` at the current position. -/
def acroRun (cc : CharClasses) : List Char → Bool
  | [] => false
  | c :: rest => isAcroChar cc c && acroTail cc rest

/-- Matcher for `\.?[\p{Lu}\-]+\.` at the current position. -/
def acroHere (cc : CharClasses) (l : List Char) : Bool :=
  acroRun cc l ||
    (match l with
     | '.' :: rest => acroRun cc rest
     | _ => false)

/-- Search for `\s\.?[\p{Lu}\-]+\.` anywhere: tries the position after every
whitespace character. -/
def acroSearch (cc : CharClasses) : List Char → Bool
  | [] => false
  | c :: rest => (cc.isWhitespace c && acroHere cc rest) || acroSearch cc rest

/-- Semantics of `ACRONYM_RE.is_match` with `ACRONYM_RE` the pattern
`(?:^|\s)\.?[\p{Lu}\-]+\.` (src/lib.rs line 35): the body may match at the
start of the text or right after any whitespace character. -/
def acronymMatch (cc : CharClasses) (l : List Char) : Bool :=
  acroHere cc l || acroSearch cc l

/-- Semantics of `CLEANUP_SPACES.replace_all(text, " ")` with the pattern
`\s{2,}` (src/lib.rs lines 32, 188): every run of two or more whitespace
characters becomes a single space; a lone whitespace character is kept
as is.  The flag records that the current whitespace run has already
emitted its replacement space. -/
def collapseAux (cc : CharClasses) : Bool → List Char → List Char
  | _, [] => []
  | inRun, c :: rest =>
    if cc.isWhitespace c then
      if inRun then collapseAux cc true rest
      else
        match rest with
        | [] => [c]
        | d :: _ =>
          if cc.isWhitespace d then ' ' :: collapseAux cc true rest
          else c :: collapseAux cc false rest
    else c :: collapseAux cc false rest

/-- Whitespace collapsing, entry point. -/
def collapseWs (cc : CharClasses) (l : List Char) : List Char :=
  collapseAux cc false l

/-- Semantics of `str::trim` on a character list: drop leading and trailing
whitespace. -/
def trimChars (cc : CharClasses) (l : List Char) : List Char :=
  ((l.dropWhile cc.isWhitespace).reverse.dropWhile cc.isWhitespace).reverse

/-- Semantics of `current.split_whitespace().last().unwrap_or("")`
(src/lib.rs line 253): the last whitespace-delimited token, or the empty
token when there is none. -/
def lastToken (cc : CharClasses) (l : List Char) : List Char :=
  ((l.reverse.dropWhile cc.isWhitespace).takeWhile (fun c => !cc.isWhitespace c)).reverse

/-- Semantics of `trim_end_matches(|c| c == '.' || c == '!' || c == '?')`
(src/lib.rs lines 254-255). -/
def stripTrailingTerm (l : List Char) : List Char :=
  (l.reverse.dropWhile (fun c => c == '.' || c == '!' || c == '?')).reverse

/-- Semantics of the whitespace-skipping lookahead loop (src/lib.rs lines
217-220): the first index at or after `j` holding a non-whitespace
character, or `chars.length` when there is none. -/
def nextNonWsIdx (cc : CharClasses) (chars : List Char) (j : Nat) : Nat :=
  j + ((chars.drop j).takeWhile cc.isWhitespace).length

/-- The inline sentence-starter test of the scanner (src/lib.rs lines
244-248). -/
def sentenceStarterCheck (cc : CharClasses) (nc : Char) : Bool :=
  cc.isUppercase nc || nc == '"' || nc == '(' || cc.isNumeric nc || nc == '«'

/-- The non-breaking-prefix override (src/lib.rs lines 251-267): applied only
when the tentative decision `s0` is positive; `contains_key` followed by
`get` and `unwrap` is modelled by a single `List.lookup`. -/
def applyNbpOverride (cc : CharClasses) (tbl : List (String × PrefixType))
    (cur : List Char) (nc : Char) (s0 : Bool) : Bool :=
  if s0 then
    match List.lookup (String.mk (stripTrailingTerm (lastToken cc cur))) tbl with
    | some PrefixType.NumericOnly => !cc.isNumeric nc
    | some PrefixType.Default => false
    | none => s0
  else s0

/-- The complete boundary decision at a candidate terminator that passed the
acronym check (src/lib.rs lines 231-268), given the precomputed lookahead
index `nci`.  When no next non-whitespace character exists,
`should_split` keeps its initial value `false`. -/
def boundaryAt (cc : CharClasses) (tbl : List (String × PrefixType))
    (chars : List Char) (i : Nat) (cur : List Char) (inQ : Bool) (nci : Nat) : Bool :=
  if nci < chars.length then
    let nc := chars.getD nci ' '
    let s0 : Bool :=
      if inQ then false
      else if 0 < i ∧ chars.getD (i - 1) ' ' = ')' then true
      else sentenceStarterCheck cc nc
    applyNbpOverride cc tbl cur nc s0
  else false

/-- The quote-status tracking of the scanner (src/lib.rs lines 205-213).
The three quote comparisons of line 206 are all against the literal
U+0022 in the source, hence one comparison here. -/
def quoteUpdate (inQ : Bool) (qc c : Char) : Bool × Char :=
  if c == '"' then
    if !inQ then (true, c)
    else if c == qc then (false, qc)
    else (inQ, qc)
  else (inQ, qc)

/-- The scanning loop of `SentenceSplitter::split` (src/lib.rs lines
197-282), including the final emission of a non-empty `current`.  The
index jump after a split (`i = next_char_idx - 1` followed by `i += 1`)
is embedded as continuing directly at `nci`.  The fuel argument makes the
recursion structural; the index grows by at least one per iteration, so
`chars.length` fuel always suffices, and the out-of-fuel result equals
the loop-exit result whenever the fuel is adequate. -/
def splitLoop (cc : CharClasses) (tbl : List (String × PrefixType))
    (chars : List Char) :
    Nat → Nat → List Char → List (List Char) → Bool → Char → List (List Char)
  | 0, _, cur, sents, _, _ =>
    if cur.isEmpty then sents else sents ++ [trimChars cc cur]
  | fuel + 1, i, cur, sents, inQ, qc =>
    if i + 1 < chars.length then
      let c := chars.getD i ' '
      let cur2 := cur ++ [c]
      let qs : Bool × Char := quoteUpdate inQ qc c
      if c == '.' || c == '?' || c == '!' then
        let nci := nextNonWsIdx cc chars (i + 1)
        if acronymMatch cc cur2 then
          splitLoop cc tbl chars fuel (i + 1) cur2 sents qs.1 qs.2
        else if boundaryAt cc tbl chars i cur2 qs.1 nci then
          splitLoop cc tbl chars fuel nci [] (sents ++ [trimChars cc cur2]) qs.1 qs.2
        else
          splitLoop cc tbl chars fuel (i + 1) cur2 sents qs.1 qs.2
      else
        splitLoop cc tbl chars fuel (i + 1) cur2 sents qs.1 qs.2
    else
      if cur.isEmpty then sents else sents ++ [trimChars cc cur]

/-- Whitespace normalization of `split` (src/lib.rs lines 188-189):
collapse whitespace runs, then trim. -/
def normalizeChars (cc : CharClasses) (l : List Char) : List Char :=
  trimChars cc (collapseWs cc l)

/-- `SentenceSplitter::split` (src/lib.rs lines 182-286): early return on the
empty string, whitespace normalization, the sentinel trailing space, the
scanning loop, and the final filter of empty sentences. -/
def split (cc : CharClasses) (tbl : List (String × PrefixType))
    (text : String) : List String :=
  if text = "" then []
  else
    let t := normalizeChars cc text.data
    let chars := t ++ [' ']
    let raw := splitLoop cc tbl chars chars.length 0 [] [] false ' '
    (raw.map (fun s => String.mk s)).filter (fun s => !s.isEmpty)

/-- Language-code validation (src/lib.rs lines 135-140): the anchored pattern
`^[a-z][a-z]$` matches exactly the strings of two lowercase ASCII
letters. -/
def langValid (s : String) : Bool :=
  match s.data with
  | [a, b] => ('a' ≤ a && a ≤ 'z') && ('a' ≤ b && b ≤ 'z')
  | _ => false

/-- Semantics of `BufRead::lines` over in-memory contents: split on `'\n'`,
no trailing empty line, strip one trailing `'\r'` per line.  Reading from
an in-memory byte slice cannot produce an I/O error, so the `line?` of
src/lib.rs line 151 has no error case here. -/
def linesAux : List Char → List Char → List (List Char)
  | [], acc =>
    [(match acc with
      | '\r' :: a => a
      | a => a).reverse]
  | c :: rest, acc =>
    if c == '\n' then
      (match acc with
       | '\r' :: a => a
       | a => a).reverse :: (if rest.isEmpty then [] else linesAux rest [])
    else linesAux rest (c :: acc)

/-- Lines of the prefix file contents. -/
def linesOf (s : String) : List (List Char) :=
  match s.data with
  | [] => []
  | l => linesAux l []

/-- Test for `line.trim_start().starts_with('#')` (src/lib.rs line 154). -/
def startsWithHash (cc : CharClasses) (line : List Char) : Bool :=
  match line.dropWhile cc.isWhitespace with
  | '#' :: _ => true
  | _ => false

/-- Test for `line.contains("#NUMERIC_ONLY#")` (src/lib.rs line 158),
checked on the unstripped line. -/
def containsNumericOnlyMarker (line : List Char) : Bool :=
  let pat := "#NUMERIC_ONLY#".data
  (List.range (line.length + 1)).any (fun k => pat.isPrefixOf (line.drop k))

/-- Semantics of `line.split('#').next().unwrap_or("")` (src/lib.rs line
165): the part of the line before the first `'#'`. -/
def takeBeforeHash (line : List Char) : List Char :=
  line.takeWhile (fun c => !(c == '#'))

/-- Processing of one line of the prefix file (src/lib.rs lines 150-170),
folded over an accumulator table. -/
def processLine (cc : CharClasses) (acc : List (String × PrefixType))
    (line : List Char) : List (String × PrefixType) :=
  if (trimChars cc line).isEmpty || startsWithHash cc line then acc
  else
    let ptype := if containsNumericOnlyMarker line then PrefixType.NumericOnly
                 else PrefixType.Default
    let cleanLine := trimChars cc (takeBeforeHash line)
    if cleanLine.isEmpty then acc else (String.mk cleanLine, ptype) :: acc

/-- `SentenceSplitter::new` (src/lib.rs lines 130-175).  The global
`NON_BREAKING_PREFIXES` table of bundled per-language file contents is
passed in as `bundled` (the bundled text assets are not part of the
source tree; per the spec, tables exist for 24 listed language codes and
unlisted codes yield no contents).  Exactly as in the source, the
`file` argument (`non_breaking_prefix_file`) is accepted but never read:
no branch of the construction mentions it. -/
def newSplitter (cc : CharClasses) (bundled : String → Option String)
    (language : String) (file : Option String) : Except SplitterError Splitter :=
  if !langValid language then
    Except.error (SplitterError.InvalidLanguageCode language)
  else
    let contents := (bundled language).getD ""
    let tbl := (linesOf contents).foldl (processLine cc) []
    Except.ok ⟨tbl⟩

/-! ### Checked-access variant of the scanner

The Rust scanner indexes `chars` at lines 202 (`chars[i]`), 218 and 260
(`chars[next_char_idx]`), 233 (`chars[next_char_idx]`), and 239
(`chars[i - 1]`); out-of-bounds indexing of a `Vec` panics.  The variant
below performs every such access through `List.get?` and aborts with
`none` on any out-of-bounds access, so proving it equal to `some` of the
total scanner shows that every access is within bounds under the
scanner's own guards.  The read inside the whitespace-skipping loop
(line 218) is guarded by the short-circuit bound check of the same loop
condition, so the lookahead index itself is shared. -/

/-- Boundary decision with checked element accesses. -/
def boundaryAtChecked (cc : CharClasses) (tbl : List (String × PrefixType))
    (chars : List Char) (i : Nat) (cur : List Char) (inQ : Bool)
    (nci : Nat) : Option Bool :=
  if nci < chars.length then
    match chars.get? nci with
    | none => none
    | some nc =>
      let s0opt : Option Bool :=
        if inQ then some false
        else if 0 < i then
          match chars.get? (i - 1) with
          | none => none
          | some pv =>
            some (if pv = ')' then true else sentenceStarterCheck cc nc)
        else some (sentenceStarterCheck cc nc)
      match s0opt with
      | none => none
      | some s0 =>
        if s0 then
          match List.lookup (String.mk (stripTrailingTerm (lastToken cc cur))) tbl with
          | some PrefixType.NumericOnly =>
            match chars.get? nci with
            | none => none
            | some nc2 => some (!cc.isNumeric nc2)
          | some PrefixType.Default => some false
          | none => some s0
        else some s0
  else some false

/-- Scanning loop with checked element accesses. -/
def splitLoopChecked (cc : CharClasses) (tbl : List (String × PrefixType))
    (chars : List Char) :
    Nat → Nat → List Char → List (List Char) → Bool → Char →
      Option (List (List Char))
  | 0, _, cur, sents, _, _ =>
    some (if cur.isEmpty then sents else sents ++ [trimChars cc cur])
  | fuel + 1, i, cur, sents, inQ, qc =>
    if i + 1 < chars.length then
      match chars.get? i with
      | none => none
      | some c =>
        let cur2 := cur ++ [c]
        let qs : Bool × Char := quoteUpdate inQ qc c
        if c == '.' || c == '?' || c == '!' then
          let nci := nextNonWsIdx cc chars (i + 1)
          if acronymMatch cc cur2 then
            splitLoopChecked cc tbl chars fuel (i + 1) cur2 sents qs.1 qs.2
          else
            match boundaryAtChecked cc tbl chars i cur2 qs.1 nci with
            | none => none
            | some b =>
              if b then
                splitLoopChecked cc tbl chars fuel nci []
                  (sents ++ [trimChars cc cur2]) qs.1 qs.2
              else
                splitLoopChecked cc tbl chars fuel (i + 1) cur2 sents qs.1 qs.2
        else
          splitLoopChecked cc tbl chars fuel (i + 1) cur2 sents qs.1 qs.2
    else
      some (if cur.isEmpty then sents else sents ++ [trimChars cc cur])

/-- `split` with checked element accesses. -/
def splitChecked (cc : CharClasses) (tbl : List (String × PrefixType))
    (text : String) : Option (List String) :=
  if text = "" then some []
  else
    let t := normalizeChars cc text.data
    let chars := t ++ [' ']
    match splitLoopChecked cc tbl chars chars.length 0 [] [] false ' ' with
    | none => none
    | some raw =>
      some ((raw.map (fun s => String.mk s)).filter (fun s => !s.isEmpty))

/-! ### Fragment-structure view of the scan, used for the idempotence proof

`futureFrags` runs the same recursion as `splitLoop` but records, per
fragment, the characters the scan will append from the current state
onward: the head of the result is the remainder of the fragment now in
progress, and the later entries are the complete later fragments.
`replayRest` is the text (with the trailing sentinel space) that
re-splitting the space-joined output would still have to scan from an
aligned position. -/

/-- True when the list has no two adjacent whitespace characters. -/
def noWsPair (cc : CharClasses) : List Char → Bool
  | [] => true
  | [_] => true
  | a :: b :: rest =>
    !(cc.isWhitespace a && cc.isWhitespace b) && noWsPair cc (b :: rest)

/-- Prepend a character to the first fragment. -/
def consHead (c : Char) : List (List Char) → List (List Char)
  | [] => [[c]]
  | f :: rest => (c :: f) :: rest

/-- Append the pending fragment prefix to the first fragment. -/
def headAppend (cur : List Char) : List (List Char) → List (List Char)
  | [] => [cur]
  | f :: rest => (cur ++ f) :: rest

/-- The characters still to be appended, per fragment, by the scan from the
given state; same branch structure as `splitLoop`. -/
def futureFrags (cc : CharClasses) (tbl : List (String × PrefixType))
    (chars : List Char) :
    Nat → Nat → List Char → Bool → Char → List (List Char)
  | 0, _, _, _, _ => [[]]
  | fuel + 1, i, cur, inQ, qc =>
    if i + 1 < chars.length then
      let c := chars.getD i ' '
      let cur2 := cur ++ [c]
      let qs : Bool × Char := quoteUpdate inQ qc c
      if c == '.' || c == '?' || c == '!' then
        let nci := nextNonWsIdx cc chars (i + 1)
        if acronymMatch cc cur2 then
          consHead c (futureFrags cc tbl chars fuel (i + 1) cur2 qs.1 qs.2)
        else if boundaryAt cc tbl chars i cur2 qs.1 nci then
          [c] :: futureFrags cc tbl chars fuel nci [] qs.1 qs.2
        else
          consHead c (futureFrags cc tbl chars fuel (i + 1) cur2 qs.1 qs.2)
      else
        consHead c (futureFrags cc tbl chars fuel (i + 1) cur2 qs.1 qs.2)
    else [[]]

/-- The sentences the scan emits from a list of complete fragments: every
fragment trimmed, except that an empty final fragment is not emitted. -/
def emitList (cc : CharClasses) : List (List Char) → List (List Char)
  | [] => []
  | [f] => if f.isEmpty then [] else [trimChars cc f]
  | f :: rest => trimChars cc f :: emitList cc rest

/-- Drop the final fragment when it is empty. -/
def dropEmptyLast (fs : List (List Char)) : List (List Char) :=
  if fs.getLast? = some [] then fs.dropLast else fs

/-- Join fragments with single spaces. -/
def joinFrags : List (List Char) → List Char
  | [] => []
  | [f] => f
  | f :: rest => f ++ ' ' :: joinFrags rest

/-- The character sequence a re-split would still have to scan from a
position aligned with the given fragment view, including the trailing
sentinel space of the re-split. -/
def replayRest (fs : List (List Char)) : List Char :=
  joinFrags (dropEmptyLast fs) ++ [' ']

/-! ### Definitions written from the claims' wording, for comparison with the code -/

/-- Non-breaking-prefix override as the claim words it: look up the last
whitespace-delimited token with trailing terminators stripped; absent
means the boundary stands, `Default` cancels unconditionally, and
`NumericOnly` keeps the boundary exactly when the next non-whitespace
character is not a digit. -/
def claimNbpOverride (cc : CharClasses) (tbl : List (String × PrefixType))
    (cur : List Char) (nc : Char) : Bool :=
  match List.lookup (String.mk (stripTrailingTerm (lastToken cc cur))) tbl with
  | none => true
  | some PrefixType.Default => false
  | some PrefixType.NumericOnly => !cc.isNumeric nc

/-- Tentative boundary decision as the claim words it: inside quotes there
is no boundary; otherwise a closing parenthesis right before the
terminator forces a boundary; otherwise the boundary holds exactly when
the next non-whitespace character is a sentence starter. -/
def claimTentativeDecision (cc : CharClasses) (inQ : Bool) (prevIsParen : Bool)
    (nc : Char) : Bool :=
  if inQ then false
  else if prevIsParen then true
  else cc.isUppercase nc || nc == '"' || nc == '(' || cc.isNumeric nc || nc == '«'

/-! ### Helper lemmas -/

theorem dropWhile_head_false {p : Char → Bool} :
    ∀ {l a t}, List.dropWhile p l = a :: t → p a = false := by
  intro l
  induction l with
  | nil => intro a t h; simp at h
  | cons c rest ih =>
    intro a t h
    by_cases hc : p c
    · rw [List.dropWhile_cons, if_pos hc] at h
      exact ih h
    · rw [List.dropWhile_cons, if_neg hc] at h
      cases h
      exact Bool.not_eq_true _ |>.mp hc

theorem dropWhile_dropWhile (p : Char → Bool) (l : List Char) :
    List.dropWhile p (List.dropWhile p l) = List.dropWhile p l := by
  cases h : List.dropWhile p l with
  | nil => simp
  | cons a t =>
    have ha := dropWhile_head_false h
    rw [List.dropWhile_cons, if_neg (by simp [ha])]

theorem dropWhile_append_single {p : Char → Bool} (u : List Char) (a : Char) :
    List.dropWhile p (u ++ [a]) = [] ∨
      ∃ v, List.dropWhile p (u ++ [a]) = v ++ [a] := by
  induction u with
  | nil =>
    by_cases hp : p a
    · left; simp [List.dropWhile_cons, hp]
    · right; exact ⟨[], by simp [List.dropWhile_cons, hp]⟩
  | cons c rest ih =>
    by_cases hp : p c
    · simpa [List.dropWhile_cons, hp] using ih
    · right; exact ⟨c :: rest, by simp [List.dropWhile_cons, hp]⟩

theorem trimChars_idem (cc : CharClasses) (l : List Char) :
    trimChars cc (trimChars cc l) = trimChars cc l := by
  set p := cc.isWhitespace with hp
  cases hm : List.dropWhile p l with
  | nil =>
    have htl : trimChars cc l = [] := by
      unfold trimChars; rw [← hp, hm]; rfl
    rw [htl]; rfl
  | cons a t =>
    have ha := dropWhile_head_false hm
    rcases dropWhile_append_single (p := p) t.reverse a with h0 | ⟨v, hv⟩
    · have htl : trimChars cc l = [] := by
        unfold trimChars; rw [← hp, hm, List.reverse_cons, h0]; rfl
      rw [htl]; rfl
    · have htl : trimChars cc l = a :: v.reverse := by
        unfold trimChars; rw [← hp, hm, List.reverse_cons, hv]; simp
      have h2 : List.dropWhile p (v ++ [a]) = v ++ [a] := by
        have h3 := dropWhile_dropWhile p (t.reverse ++ [a])
        rw [hv] at h3; exact h3
      rw [htl]
      unfold trimChars; rw [← hp]
      rw [List.dropWhile_cons, if_neg (by simp [ha])]
      simp [h2]

theorem splitLoop_mem_trim (cc : CharClasses) (tbl : List (String × PrefixType))
    (chars : List Char) :
    ∀ fuel i cur sents inQ qc s,
      s ∈ splitLoop cc tbl chars fuel i cur sents inQ qc →
      s ∈ sents ∨ ∃ u, s = trimChars cc u := by
  intro fuel
  induction fuel with
  | zero =>
    intro i cur sents inQ qc s hs
    by_cases hc : cur.isEmpty
    · rw [splitLoop, if_pos hc] at hs; exact Or.inl hs
    · rw [splitLoop, if_neg hc] at hs
      rcases List.mem_append.mp hs with h | h
      · exact Or.inl h
      · exact Or.inr ⟨cur, by simpa using h⟩
  | succ fuel ih =>
    intro i cur sents inQ qc s hs
    rw [splitLoop] at hs
    by_cases hlen : i + 1 < chars.length
    · rw [if_pos hlen] at hs
      simp only at hs
      split at hs
      · split at hs
        · rcases ih _ _ _ _ _ _ hs with h | h
          · exact Or.inl h
          · exact Or.inr h
        · split at hs
          · rcases ih _ _ _ _ _ _ hs with h | h
            · rcases List.mem_append.mp h with h2 | h2
              · exact Or.inl h2
              · exact Or.inr ⟨_, by simpa using h2⟩
            · exact Or.inr h
          · rcases ih _ _ _ _ _ _ hs with h | h
            · exact Or.inl h
            · exact Or.inr h
      · rcases ih _ _ _ _ _ _ hs with h | h
        · exact Or.inl h
        · exact Or.inr h
    · rw [if_neg hlen] at hs
      by_cases hc : cur.isEmpty
      · rw [if_pos hc] at hs; exact Or.inl hs
      · rw [if_neg hc] at hs
        rcases List.mem_append.mp hs with h | h
        · exact Or.inl h
        · exact Or.inr ⟨cur, by simpa using h⟩

/-- Outputs of the full `split` are non-empty and already trimmed. -/
theorem split_mem_shape (cc : CharClasses) (tbl : List (String × PrefixType))
    (text : String) (s : String) (hs : s ∈ split cc tbl text) :
    s ≠ "" ∧ s.data = trimChars cc s.data := by
  unfold split at hs
  by_cases h0 : text = ""
  · rw [if_pos h0] at hs; simp at hs
  · rw [if_neg h0] at hs
    simp only [List.mem_filter, List.mem_map] at hs
    obtain ⟨⟨u, hu, hmk⟩, hne⟩ := hs
    subst hmk
    have hu2 := splitLoop_mem_trim cc tbl _ _ _ _ _ _ _ _ hu
    constructor
    · intro hcon
      have : u = [] := by
        have := congrArg String.data hcon
        simpa using this
      rw [this] at hne
      simp [String.isEmpty] at hne
    · rcases hu2 with h | ⟨v, hv⟩
      · simp at h
      · show (String.mk u).data = trimChars cc (String.mk u).data
        have hdata : (String.mk u).data = u := rfl
        rw [hdata, hv, trimChars_idem]

/-! ### Claim theorems -/

/-- C1 — counter-evidence: `SentenceSplitter::new` never reads its
`non_breaking_prefix_file` argument, so an explicitly supplied prefix
file can never take precedence over (or even influence) the bundled
table: construction with any file argument is identical to construction
with none. -/
theorem newSplitter_ignores_explicit_file :
    ∀ (cc : CharClasses) (bundled : String → Option String)
      (language : String) (file : Option String),
      newSplitter cc bundled language file = newSplitter cc bundled language none := by
  intro cc bundled language file
  rfl

/-- C2 — counter-evidence for the unreadable-file conjunct: with a valid but
unrecognized language code and an explicit path that denotes no readable
file, construction still succeeds with an empty table instead of failing
with `PrefixFileNotFound` or an I/O error, because the file argument is
never opened. -/
theorem newSplitter_ok_on_unreadable_path
    (bundled : String → Option String) (h : bundled "xx" = none) :
    newSplitter rustCC bundled "xx" (some "/nonexistent/path") =
      Except.ok ⟨[]⟩ := by
  unfold newSplitter
  rw [h]
  rfl

/-- Witness for the C2 theorem at a concrete bundled-table map. -/
theorem newSplitter_ok_on_unreadable_path_witness :
    newSplitter rustCC (fun _ => none) "xx" (some "/nonexistent/path") =
      Except.ok ⟨[]⟩ :=
  newSplitter_ok_on_unreadable_path (fun _ => none) rfl

/-- C4: the non-breaking-prefix override of the scanner is applied only when
the tentative decision is positive, and then behaves exactly as the claim
words it: token absent, the boundary stands; kind `Default`, the boundary
is cancelled unconditionally; kind `NumericOnly`, the boundary holds
exactly when the next non-whitespace character is not a digit. -/
theorem applyNbpOverride_matches_claim :
    ∀ (cc : CharClasses) (tbl : List (String × PrefixType))
      (cur : List Char) (nc : Char),
      applyNbpOverride cc tbl cur nc false = false ∧
      applyNbpOverride cc tbl cur nc true = claimNbpOverride cc tbl cur nc := by
  intro cc tbl cur nc
  constructor
  · rfl
  · unfold applyNbpOverride claimNbpOverride
    cases List.lookup (String.mk (stripTrailingTerm (lastToken cc cur))) tbl with
    | none => rfl
    | some k => cases k <;> rfl

/-- C5: at a terminator that passed the acronym check and has a next
non-whitespace character, the scanner's boundary decision equals the
claim's tentative-decision precedence (quote state first, then the
closing-parenthesis rule, then the sentence-starter test) followed by
the prefix override. -/
theorem boundaryAt_matches_claim (cc : CharClasses)
    (tbl : List (String × PrefixType)) (chars : List Char) (i : Nat)
    (cur : List Char) (inQ : Bool) (nci : Nat) (hn : nci < chars.length) :
    boundaryAt cc tbl chars i cur inQ nci =
      applyNbpOverride cc tbl cur (chars.getD nci ' ')
        (claimTentativeDecision cc inQ
          (decide (0 < i ∧ chars.getD (i - 1) ' ' = ')'))
          (chars.getD nci ' ')) := by
  unfold boundaryAt claimTentativeDecision sentenceStarterCheck
  rw [if_pos hn]
  by_cases hq : inQ
  · simp [hq]
  · simp only [hq, if_false, Bool.false_eq_true]
    by_cases hp : 0 < i ∧ chars.getD (i - 1) ' ' = ')'
    · simp [hp]
    · simp [hp]

/-- Witness for the C5 theorem at a concrete scan position. -/
theorem boundaryAt_matches_claim_witness :
    2 < 3 ∧
      boundaryAt rustCC [] ['a', '.', 'B'] 1 ['a', '.'] false 2 =
        applyNbpOverride rustCC [] ['a', '.'] (['a', '.', 'B'].getD 2 ' ')
          (claimTentativeDecision rustCC false
            (decide (0 < 1 ∧ ['a', '.', 'B'].getD (1 - 1) ' ' = ')'))
            (['a', '.', 'B'].getD 2 ' ')) :=
  ⟨by decide, boundaryAt_matches_claim rustCC [] ['a', '.', 'B'] 1 ['a', '.'] false 2 (by decide)⟩

/-- C8: splitting the empty string yields the empty sequence, and every
output sentence of any split is non-empty and fixed under whitespace
trimming. -/
theorem split_empty_and_output_shape :
    ∀ (cc : CharClasses) (tbl : List (String × PrefixType)),
      split cc tbl "" = [] ∧
        ∀ (text : String) (s : String), s ∈ split cc tbl text →
          s ≠ "" ∧ s.data = trimChars cc s.data := by
  intro cc tbl
  refine ⟨rfl, ?_⟩
  intro text s hs
  exact split_mem_shape cc tbl text s hs

/-- Witness for the C8 theorem: a concrete split with a concrete member. -/
theorem split_empty_and_output_shape_witness :
    split rustCC [] "" = [] ∧
      ("Hey." ≠ "" ∧ "Hey.".data = trimChars rustCC "Hey.".data) :=
  ⟨(split_empty_and_output_shape rustCC []).1,
   (split_empty_and_output_shape rustCC []).2 "Hey. Now." "Hey." (by decide)⟩

/-- C10: any non-empty all-whitespace input is reduced to nothing by
normalization and trimming, the scan loop body never runs, and no final
fragment is emitted, so `split` returns the empty sequence. -/
theorem split_all_whitespace_empty (tbl : List (String × PrefixType))
    (text : String) (hne : text ≠ "")
    (hws : ∀ c ∈ text.data, rsIsWhitespace c = true) :
    split rustCC tbl text = [] := by
  have hall : ∀ b, ∀ c ∈ collapseAux rustCC b text.data, rustCC.isWhitespace c = true := by
    have : ∀ (l : List Char), (∀ c ∈ l, rsIsWhitespace c = true) →
        ∀ b, ∀ c ∈ collapseAux rustCC b l, rustCC.isWhitespace c = true := by
      intro l
      induction l with
      | nil => intro _ b c hc; simp [collapseAux] at hc
      | cons a rest ih =>
        intro hl b c hc
        have ha : rsIsWhitespace a = true := hl a (List.mem_cons_self a rest)
        have hrest : ∀ c ∈ rest, rsIsWhitespace c = true := by
          intro x hx; exact hl x (List.mem_cons_of_mem a hx)
        simp only [collapseAux] at hc
        rw [show rustCC.isWhitespace a = rsIsWhitespace a from rfl] at hc
        rw [ha] at hc
        simp only [if_true] at hc
        cases b with
        | true => exact ih hrest true c hc
        | false =>
          cases rest with
          | nil =>
            simp at hc
            rw [hc]; exact ha
          | cons d rest2 =>
            have hd : rustCC.isWhitespace d = true := hrest d (List.mem_cons_self d rest2)
            simp only [Bool.false_eq_true, if_false, hd, if_true] at hc
            rcases List.mem_cons.mp hc with h | h
            · rw [h]; rfl
            · exact ih hrest true c h
    exact fun b => this text.data hws b
  have hcoll : List.dropWhile rustCC.isWhitespace (collapseWs rustCC text.data) = [] := by
    rw [List.dropWhile_eq_nil_iff]
    intro x hx
    exact hall false x hx
  have hnorm : normalizeChars rustCC text.data = [] := by
    unfold normalizeChars trimChars
    rw [hcoll]
    rfl
  unfold split
  rw [if_neg hne, hnorm]
  rfl

/-- Witness for the C10 theorem at a concrete all-whitespace input. -/
theorem split_all_whitespace_empty_witness :
    " \t " ≠ "" ∧ split rustCC [] " \t " = [] :=
  ⟨by decide, split_all_whitespace_empty [] " \t " (by decide) (by decide)⟩

/-- C3 — counter-evidence for the concrete consequence: on the conformance
input `"Hello. .NATO. Good bye."` the scanner splits after the lone dot
(the acronym pattern has not yet appeared in the fragment `"Hello. ."`
at that point, the next non-whitespace character is the uppercase `N`,
and the stripped last token is empty and hence absent from any table
without an empty key), so the result is two sentences rather than the
single sentence the claim and the source's own test assert.  Every
bundled table lacks an empty key, since parsing skips lines that clean
to nothing. -/
theorem split_acronym_example (tbl : List (String × PrefixType))
    (h : List.lookup "" tbl = none) :
    split rustCC tbl "Hello. .NATO. Good bye." =
      ["Hello. .", "NATO. Good bye."] := by
  have h2 : List.lookup (String.mk ([] : List Char)) tbl = none := h
  simp +decide [split, splitLoop, boundaryAt, applyNbpOverride, quoteUpdate,
    nextNonWsIdx, acronymMatch, acroHere, acroSearch, acroRun, acroTail,
    isAcroChar, sentenceStarterCheck, lastToken, stripTrailingTerm,
    trimChars, normalizeChars, collapseWs, collapseAux, rustCC,
    rsIsWhitespace, rsIsUppercase, rsIsNumeric, h2]

/-- Witness for the C3 theorem at the empty table. -/
theorem split_acronym_example_witness :
    List.lookup "" ([] : List (String × PrefixType)) = none ∧
      split rustCC [] "Hello. .NATO. Good bye." =
        ["Hello. .", "NATO. Good bye."] :=
  ⟨rfl, split_acronym_example [] rfl⟩

/-- Parsing a prefix file never produces an empty key: a line whose
cleaned-up content is empty is skipped, so the hypothesis of the C3
counter-evidence holds for every table a construction can build. -/
theorem newSplitter_no_empty_key (cc : CharClasses)
    (bundled : String → Option String) (language : String)
    (file : Option String) (sp : Splitter)
    (hok : newSplitter cc bundled language file = Except.ok sp) :
    List.lookup "" sp.nonBreakingPrefixes = none := by
  unfold newSplitter at hok
  by_cases hv : !langValid language
  · rw [if_pos hv] at hok; cases hok
  · rw [if_neg hv] at hok
    cases hok
    show List.lookup "" (List.foldl (processLine cc) [] _) = none
    generalize linesOf ((bundled language).getD "") = ls
    have main : ∀ (ls : List (List Char)) (acc : List (String × PrefixType)),
        List.lookup "" acc = none →
        List.lookup "" (List.foldl (processLine cc) acc ls) = none := by
      intro ls
      induction ls with
      | nil => intro acc hacc; exact hacc
      | cons line rest ih =>
        intro acc hacc
        simp only [List.foldl_cons]
        apply ih
        unfold processLine
        split
        · exact hacc
        · dsimp only
          by_cases hemp : (trimChars cc (takeBeforeHash line)).isEmpty
          · rw [if_pos hemp]; exact hacc
          · rw [if_neg hemp]
            have hne : ("" == String.mk (trimChars cc (takeBeforeHash line))) = false := by
              rw [beq_eq_false_iff_ne]
              intro hcon
              apply hemp
              have hd := congrArg String.data hcon
              rw [List.isEmpty_iff]
              exact hd.symm
            simp only [List.lookup, hne]
            exact hacc
    exact main ls [] rfl

/-- A guarded element access never misses. -/
theorem get?_eq_some_getD (l : List Char) (n : Nat) (d : Char)
    (h : n < l.length) : l.get? n = some (l.getD n d) := by
  rw [List.getD_eq_get?]
  cases hg : l.get? n with
  | none => rw [List.get?_eq_none] at hg; omega
  | some x => rfl

/-- The checked boundary decision agrees with the total one whenever the
terminator index is in bounds. -/
theorem boundaryAtChecked_eq (cc : CharClasses) (tbl : List (String × PrefixType))
    (chars : List Char) (i : Nat) (cur : List Char) (inQ : Bool) (nci : Nat)
    (hi : i < chars.length) :
    boundaryAtChecked cc tbl chars i cur inQ nci =
      some (boundaryAt cc tbl chars i cur inQ nci) := by
  unfold boundaryAtChecked boundaryAt
  by_cases hn : nci < chars.length
  · rw [if_pos hn, if_pos hn, get?_eq_some_getD chars nci ' ' hn]
    dsimp only
    have hs0 :
        (if inQ then some false
         else if 0 < i then
           match chars.get? (i - 1) with
           | none => none
           | some pv =>
             some (if pv = ')' then true
                   else sentenceStarterCheck cc (chars.getD nci ' '))
         else some (sentenceStarterCheck cc (chars.getD nci ' '))) =
        some (if inQ then false
              else if 0 < i ∧ chars.getD (i - 1) ' ' = ')' then true
              else sentenceStarterCheck cc (chars.getD nci ' ')) := by
      by_cases hq : inQ
      · simp [hq]
      · rw [if_neg hq, if_neg hq]
        by_cases hpos : 0 < i
        · have hprev : i - 1 < chars.length := by omega
          rw [if_pos hpos, get?_eq_some_getD chars (i - 1) ' ' hprev]
          dsimp only
          by_cases hpv : chars.getD (i - 1) ' ' = ')'
          · rw [if_pos hpv, if_pos (And.intro hpos hpv)]
          · rw [if_neg hpv, if_neg (fun hcon => hpv hcon.2)]
        · rw [if_neg hpos, if_neg (by tauto)]
    rw [hs0]
    dsimp only
    unfold applyNbpOverride
    set s0 := (if inQ then false
               else if 0 < i ∧ chars.getD (i - 1) ' ' = ')' then true
               else sentenceStarterCheck cc (chars.getD nci ' ')) with hs0def
    cases s0 with
    | false => simp
    | true =>
      simp only [if_true]
      cases List.lookup (String.mk (stripTrailingTerm (lastToken cc cur))) tbl with
      | none => rfl
      | some k =>
        cases k with
        | Default => rfl
        | NumericOnly => rfl
  · rw [if_neg hn, if_neg hn]

/-- The checked scanning loop agrees with the total one. -/
theorem splitLoopChecked_eq (cc : CharClasses) (tbl : List (String × PrefixType))
    (chars : List Char) :
    ∀ (fuel i : Nat) (cur : List Char) (sents : List (List Char))
      (inQ : Bool) (qc : Char),
      splitLoopChecked cc tbl chars fuel i cur sents inQ qc =
        some (splitLoop cc tbl chars fuel i cur sents inQ qc) := by
  intro fuel
  induction fuel with
  | zero => intro i cur sents inQ qc; rfl
  | succ fuel ih =>
    intro i cur sents inQ qc
    rw [splitLoopChecked, splitLoop]
    by_cases hlen : i + 1 < chars.length
    · rw [if_pos hlen, if_pos hlen,
        get?_eq_some_getD chars i ' ' (by omega)]
      dsimp only
      by_cases hterm :
          (chars.getD i ' ' == '.' || chars.getD i ' ' == '?' ||
            chars.getD i ' ' == '!') = true
      · rw [if_pos hterm, if_pos hterm]
        by_cases hacro :
            acronymMatch cc (cur ++ [chars.getD i ' ']) = true
        · rw [if_pos hacro, if_pos hacro]
          exact ih _ _ _ _ _
        · rw [if_neg hacro, if_neg hacro,
            boundaryAtChecked_eq cc tbl chars i (cur ++ [chars.getD i ' '])
              (quoteUpdate inQ qc (chars.getD i ' ')).1
              (nextNonWsIdx cc chars (i + 1)) (by omega)]
          dsimp only
          by_cases hb :
              boundaryAt cc tbl chars i (cur ++ [chars.getD i ' '])
                (quoteUpdate inQ qc (chars.getD i ' ')).1
                (nextNonWsIdx cc chars (i + 1)) = true
          · rw [if_pos hb, if_pos hb]
            exact ih _ _ _ _ _
          · rw [if_neg hb, if_neg hb]
            exact ih _ _ _ _ _
      · rw [if_neg hterm, if_neg hterm]
        exact ih _ _ _ _ _
    · rw [if_neg hlen, if_neg hlen]

/-- C9: the scanner is total and panic-free.  The checked-access variant,
which aborts on any out-of-bounds character access, always succeeds and
returns exactly the result of the total function, for every input string
(including the empty string) and every table; hence every index the scan
performs is within bounds under its own guards and there is no error
path. -/
theorem splitChecked_eq (cc : CharClasses) (tbl : List (String × PrefixType))
    (text : String) :
    splitChecked cc tbl text = some (split cc tbl text) := by
  unfold splitChecked split
  by_cases h0 : text = ""
  · rw [if_pos h0, if_pos h0]
  · rw [if_neg h0, if_neg h0]
    dsimp only
    rw [splitLoopChecked_eq]

theorem getD_take (L : List Char) (m i : Nat) (d : Char) (h : i < m) :
    (L.take m).getD i d = L.getD i d := by
  rw [List.getD_eq_get?, List.getD_eq_get?, List.get?_take h]

theorem getD_drop (L : List Char) (j m : Nat) (d : Char) :
    (L.drop j).getD m d = L.getD (j + m) d := by
  rw [List.getD_eq_get?, List.getD_eq_get?, List.get?_drop]

theorem drop_eq_getD_cons (L : List Char) (i : Nat) (d : Char)
    (h : i < L.length) : L.drop i = L.getD i d :: L.drop (i + 1) := by
  rw [List.drop_eq_getElem_cons h]
  congr 1
  rw [List.getD_eq_get?]
  rw [List.get?_eq_getElem?, List.getElem?_eq_getElem h]
  rfl

theorem takeWhile_pred_getD (p : Char → Bool) :
    ∀ (l : List Char) (i : Nat) (d : Char),
      i < (l.takeWhile p).length → p (l.getD i d) = true := by
  intro l
  induction l with
  | nil => intro i d h; simp at h
  | cons c rest ih =>
    intro i d h
    rw [List.takeWhile_cons] at h
    by_cases hc : p c
    · rw [if_pos hc] at h
      cases i with
      | zero => simpa using hc
      | succ i =>
        simp only [List.length_cons, Nat.succ_lt_succ_iff] at h
        simpa using ih i d h
    · rw [if_neg hc] at h; simp at h

theorem nextNonWsIdx_ge (cc : CharClasses) (chars : List Char) (j : Nat) :
    j ≤ nextNonWsIdx cc chars j :=
  Nat.le_add_right j _

theorem length_takeWhile_le_self (p : Char → Bool) (l : List Char) :
    (l.takeWhile p).length ≤ l.length := by
  induction l with
  | nil => simp
  | cons c rest ih =>
    rw [List.takeWhile_cons]
    by_cases hc : p c
    · rw [if_pos hc]; simpa using ih
    · rw [if_neg hc]; simp

theorem nextNonWsIdx_le_length (cc : CharClasses) (chars : List Char) (j : Nat)
    (h : j ≤ chars.length) : nextNonWsIdx cc chars j ≤ chars.length := by
  unfold nextNonWsIdx
  have h1 : ((chars.drop j).takeWhile cc.isWhitespace).length ≤ (chars.drop j).length :=
    length_takeWhile_le_self _ _
  have h2 : (chars.drop j).length = chars.length - j := List.length_drop j chars
  omega

theorem nextNonWsIdx_ws (cc : CharClasses) (chars : List Char) (j p : Nat)
    (h1 : j ≤ p) (h2 : p < nextNonWsIdx cc chars j) :
    cc.isWhitespace (chars.getD p ' ') = true := by
  unfold nextNonWsIdx at h2
  have hm : p - j < ((chars.drop j).takeWhile cc.isWhitespace).length := by omega
  have := takeWhile_pred_getD cc.isWhitespace (chars.drop j) (p - j) ' ' hm
  rw [getD_drop] at this
  have hpj : j + (p - j) = p := by omega
  rw [hpj] at this
  exact this

theorem filter_not_dropWhile (p : Char → Bool) (l : List Char) :
    List.filter (fun c => !p c) (List.dropWhile p l) =
      List.filter (fun c => !p c) l := by
  conv_rhs => rw [← List.takeWhile_append_dropWhile p l]
  rw [List.filter_append]
  have : List.filter (fun c => !p c) (List.takeWhile p l) = [] := by
    rw [List.filter_eq_nil]
    intro a ha
    have := List.mem_takeWhile_imp ha
    simp [this]
  rw [this, List.nil_append]

theorem filter_nonws_trim (cc : CharClasses) (l : List Char) :
    List.filter (fun c => !cc.isWhitespace c) (trimChars cc l) =
      List.filter (fun c => !cc.isWhitespace c) l := by
  unfold trimChars
  rw [List.filter_reverse, filter_not_dropWhile, List.filter_reverse,
    List.reverse_reverse, filter_not_dropWhile]

theorem filter_gapWs (cc : CharClasses) (chars : List Char) :
    ∀ (n j : Nat), j + n ≤ chars.length - 1 →
      (∀ p, j ≤ p → p < j + n → cc.isWhitespace (chars.getD p ' ') = true) →
      List.filter (fun c => !cc.isWhitespace c)
          ((chars.take (chars.length - 1)).drop j) =
        List.filter (fun c => !cc.isWhitespace c)
          ((chars.take (chars.length - 1)).drop (j + n)) := by
  intro n
  induction n with
  | zero => intro j _ _; rfl
  | succ n ih =>
    intro j hle hws
    have hjlen : j < (chars.take (chars.length - 1)).length := by
      rw [List.length_take]
      omega
    rw [drop_eq_getD_cons _ j ' ' hjlen]
    have hj2 : (chars.take (chars.length - 1)).getD j ' ' = chars.getD j ' ' := by
      apply getD_take
      omega
    rw [List.filter_cons]
    have hwsj : cc.isWhitespace (chars.getD j ' ') = true :=
      hws j (Nat.le_refl j) (by omega)
    rw [hj2]
    simp only [hwsj, Bool.not_true, Bool.false_eq_true, if_false,
      cond_false]
    have := ih (j + 1) (by omega) (fun p hp1 hp2 => hws p (by omega) (by omega))
    rw [this]
    have harith : j + 1 + n = j + (n + 1) := by omega
    rw [harith]

theorem boundaryAt_true_lt (cc : CharClasses) (tbl : List (String × PrefixType))
    (chars : List Char) (i : Nat) (cur : List Char) (inQ : Bool) (nci : Nat)
    (h : boundaryAt cc tbl chars i cur inQ nci = true) : nci < chars.length := by
  by_cases hn : nci < chars.length
  · exact hn
  · unfold boundaryAt at h
    rw [if_neg hn] at h
    cases h

theorem splitLoop_nonws (cc : CharClasses) (tbl : List (String × PrefixType))
    (chars : List Char) :
    ∀ (fuel i : Nat) (cur : List Char) (sents : List (List Char))
      (inQ : Bool) (qc : Char),
      chars.length ≤ i + fuel + 1 →
      List.filter (fun c => !cc.isWhitespace c)
          (splitLoop cc tbl chars fuel i cur sents inQ qc).flatten =
        List.filter (fun c => !cc.isWhitespace c)
          (sents.flatten ++ cur ++ (chars.take (chars.length - 1)).drop i) := by
  intro fuel
  induction fuel with
  | zero =>
    intro i cur sents inQ qc hfuel
    have hdrop : (chars.take (chars.length - 1)).drop i = [] := by
      apply List.drop_eq_nil_of_le
      rw [List.length_take]
      omega
    rw [splitLoop, hdrop]
    by_cases hc : cur.isEmpty
    · rw [if_pos hc]
      rw [List.isEmpty_iff] at hc
      rw [hc]
      simp
    · rw [if_neg hc]
      simp [List.flatten_append, List.filter_append, filter_nonws_trim]
  | succ fuel ih =>
    intro i cur sents inQ qc hfuel
    rw [splitLoop]
    by_cases hlen : i + 1 < chars.length
    · rw [if_pos hlen]
      dsimp only
      have hitk : i < (chars.take (chars.length - 1)).length := by
        rw [List.length_take]; omega
      have hrem : (chars.take (chars.length - 1)).drop i =
          chars.getD i ' ' :: (chars.take (chars.length - 1)).drop (i + 1) := by
        rw [drop_eq_getD_cons _ i ' ' hitk, getD_take _ _ _ _ (by omega)]
      rw [hrem]
      have hassoc : ∀ (rest : List Char),
          List.filter (fun c => !cc.isWhitespace c)
              (sents.flatten ++ cur ++ (chars.getD i ' ' :: rest)) =
            List.filter (fun c => !cc.isWhitespace c)
              (sents.flatten ++ (cur ++ [chars.getD i ' ']) ++ rest) := by
        intro rest
        congr 1
        simp [List.append_assoc]
      split
      · split
        · rw [ih _ _ _ _ _ (by omega), hassoc]
        · split
          · rename_i hterm hacro hb
            have hnci : nextNonWsIdx cc chars (i + 1) < chars.length :=
              boundaryAt_true_lt _ _ _ _ _ _ _ hb
            rw [ih _ _ _ _ _ (by
              have := nextNonWsIdx_ge cc chars (i + 1)
              omega)]
            have hgap : List.filter (fun c => !cc.isWhitespace c)
                ((chars.take (chars.length - 1)).drop (i + 1)) =
                List.filter (fun c => !cc.isWhitespace c)
                  ((chars.take (chars.length - 1)).drop
                    (nextNonWsIdx cc chars (i + 1))) := by
              have hsum : (i + 1) + (nextNonWsIdx cc chars (i + 1) - (i + 1)) =
                  nextNonWsIdx cc chars (i + 1) := by
                have := nextNonWsIdx_ge cc chars (i + 1)
                omega
              have := filter_gapWs cc chars
                (nextNonWsIdx cc chars (i + 1) - (i + 1)) (i + 1)
                (by omega)
                (fun p hp1 hp2 => by
                  apply nextNonWsIdx_ws cc chars (i + 1) p hp1
                  omega)
              rw [hsum] at this
              exact this
            rw [hassoc]
            simp only [List.flatten_append, List.flatten_cons, List.flatten_nil,
              List.filter_append, List.append_nil, List.append_assoc]
            rw [filter_nonws_trim, hgap]
            simp [List.filter_append, List.append_assoc]
          · rw [ih _ _ _ _ _ (by omega), hassoc]
      · rw [ih _ _ _ _ _ (by omega), hassoc]
    · rw [if_neg hlen]
      have hdrop : (chars.take (chars.length - 1)).drop i = [] := by
        apply List.drop_eq_nil_of_le
        rw [List.length_take]
        omega
      rw [hdrop]
      by_cases hc : cur.isEmpty
      · rw [if_pos hc]
        rw [List.isEmpty_iff] at hc
        rw [hc]
        simp
      · rw [if_neg hc]
        simp [List.flatten_append, List.filter_append, filter_nonws_trim]

theorem flatten_filter_mk (raw : List (List Char)) :
    ((((raw.map (fun s => String.mk s)).filter (fun s => !s.isEmpty)).map
        String.data)).flatten = raw.flatten := by
  induction raw with
  | nil => rfl
  | cons u rest ih =>
    simp only [List.map_cons, List.filter_cons]
    by_cases hu : u = []
    · have h1 : ((String.mk u).isEmpty) = true := by
        rw [String.isEmpty_iff, hu]
      simp only [h1, Bool.not_true, Bool.false_eq_true, if_false, cond_false]
      rw [ih, hu]
      simp
    · have h1 : ((String.mk u).isEmpty) = false := by
        rw [Bool.eq_false_iff]
        intro hcon
        rw [String.isEmpty_iff] at hcon
        exact hu (congrArg String.data hcon)
      simp only [h1, Bool.not_false, cond_true, if_true]
      rw [List.map_cons, List.flatten_cons, List.flatten_cons, ih]

/-- C6 — no loss: the non-whitespace characters of the concatenated output
sentences are exactly the non-whitespace characters of the
whitespace-normalized input, in order; nothing is duplicated or
dropped. -/
theorem split_no_loss (cc : CharClasses) (tbl : List (String × PrefixType))
    (text : String) :
    (((split cc tbl text).map String.data).flatten).filter
        (fun c => !cc.isWhitespace c) =
      (normalizeChars cc text.data).filter (fun c => !cc.isWhitespace c) := by
  unfold split
  by_cases h0 : text = ""
  · rw [if_pos h0, h0]
    rfl
  · rw [if_neg h0]
    dsimp only
    rw [flatten_filter_mk]
    have hlen : (normalizeChars cc text.data ++ [' ']).length =
        (normalizeChars cc text.data).length + 1 := by
      rw [List.length_append]
      rfl
    have hmain := splitLoop_nonws cc tbl (normalizeChars cc text.data ++ [' '])
      (normalizeChars cc text.data ++ [' ']).length 0 [] [] false ' '
      (by omega)
    rw [hmain]
    rw [hlen]
    simp only [Nat.add_sub_cancel, List.drop_zero, List.flatten_nil,
      List.nil_append]
    rw [List.take_left]

theorem splitLoop_acc (cc : CharClasses) (tbl : List (String × PrefixType))
    (chars : List Char) :
    ∀ (fuel i : Nat) (cur : List Char) (sents : List (List Char))
      (inQ : Bool) (qc : Char),
      splitLoop cc tbl chars fuel i cur sents inQ qc =
        sents ++ splitLoop cc tbl chars fuel i cur [] inQ qc := by
  intro fuel
  induction fuel with
  | zero =>
    intro i cur sents inQ qc
    rw [splitLoop, splitLoop]
    by_cases hc : cur.isEmpty
    · rw [if_pos hc, if_pos hc, List.append_nil]
    · rw [if_neg hc, if_neg hc, List.nil_append]
  | succ fuel ih =>
    intro i cur sents inQ qc
    rw [splitLoop, splitLoop]
    by_cases hlen : i + 1 < chars.length
    · rw [if_pos hlen, if_pos hlen]
      dsimp only
      split
      · split
        · rw [ih _ _ sents, ih _ _ ([] : List (List Char))]
        · split
          · rw [ih _ _ (sents ++ _), ih _ _ ([] ++ _)]
            rw [List.nil_append, List.append_assoc]
          · rw [ih _ _ sents, ih _ _ ([] : List (List Char))]
      · rw [ih _ _ sents, ih _ _ ([] : List (List Char))]
    · rw [if_neg hlen, if_neg hlen]
      by_cases hc : cur.isEmpty
      · rw [if_pos hc, if_pos hc, List.append_nil]
      · rw [if_neg hc, if_neg hc, List.nil_append]

theorem futureFrags_ne_nil (cc : CharClasses) (tbl : List (String × PrefixType))
    (chars : List Char) (fuel i : Nat) (cur : List Char) (inQ : Bool) (qc : Char) :
    futureFrags cc tbl chars fuel i cur inQ qc ≠ [] := by
  cases fuel with
  | zero => simp [futureFrags]
  | succ fuel =>
    rw [futureFrags]
    by_cases hlen : i + 1 < chars.length
    · rw [if_pos hlen]
      dsimp only
      split
      · split
        · cases h : futureFrags cc tbl chars fuel (i + 1)
              (cur ++ [chars.getD i ' ']) (quoteUpdate inQ qc (chars.getD i ' ')).1
              (quoteUpdate inQ qc (chars.getD i ' ')).2 with
          | nil => simp [consHead]
          | cons f rest => simp [consHead]
        · split
          · simp
          · cases h : futureFrags cc tbl chars fuel (i + 1)
                (cur ++ [chars.getD i ' ']) (quoteUpdate inQ qc (chars.getD i ' ')).1
                (quoteUpdate inQ qc (chars.getD i ' ')).2 with
            | nil => simp [consHead]
            | cons f rest => simp [consHead]
      · cases h : futureFrags cc tbl chars fuel (i + 1)
            (cur ++ [chars.getD i ' ']) (quoteUpdate inQ qc (chars.getD i ' ')).1
            (quoteUpdate inQ qc (chars.getD i ' ')).2 with
        | nil => simp [consHead]
        | cons f rest => simp [consHead]
    · rw [if_neg hlen]
      simp

theorem splitLoop_eq_emit (cc : CharClasses) (tbl : List (String × PrefixType))
    (chars : List Char) :
    ∀ (fuel i : Nat) (cur : List Char) (inQ : Bool) (qc : Char),
      splitLoop cc tbl chars fuel i cur [] inQ qc =
        emitList cc (headAppend cur (futureFrags cc tbl chars fuel i cur inQ qc)) := by
  intro fuel
  induction fuel with
  | zero =>
    intro i cur inQ qc
    rw [splitLoop, futureFrags]
    show _ = emitList cc (headAppend cur [[]])
    rw [show headAppend cur [[]] = [cur ++ []] from rfl, List.append_nil]
    rw [show emitList cc [cur] = if cur.isEmpty then [] else [trimChars cc cur] from rfl]
    by_cases hc : cur.isEmpty
    · rw [if_pos hc, if_pos hc]
    · rw [if_neg hc, if_neg hc, List.nil_append]
  | succ fuel ih =>
    intro i cur inQ qc
    rw [splitLoop, futureFrags]
    by_cases hlen : i + 1 < chars.length
    · rw [if_pos hlen, if_pos hlen]
      dsimp only
      split
      · split
        · rw [ih]
          cases h : futureFrags cc tbl chars fuel (i + 1)
              (cur ++ [chars.getD i ' ']) (quoteUpdate inQ qc (chars.getD i ' ')).1
              (quoteUpdate inQ qc (chars.getD i ' ')).2 with
          | nil => exact absurd h (futureFrags_ne_nil _ _ _ _ _ _ _ _)
          | cons f rest =>
            rw [show consHead (chars.getD i ' ') (f :: rest) =
                (chars.getD i ' ' :: f) :: rest from rfl]
            rw [show headAppend (cur ++ [chars.getD i ' ']) (f :: rest) =
                ((cur ++ [chars.getD i ' ']) ++ f) :: rest from rfl]
            rw [show headAppend cur ((chars.getD i ' ' :: f) :: rest) =
                (cur ++ (chars.getD i ' ' :: f)) :: rest from rfl]
            rw [show cur ++ chars.getD i ' ' :: f =
                (cur ++ [chars.getD i ' ']) ++ f by simp]
        · split
          · rw [splitLoop_acc, List.nil_append, ih]
            cases h : futureFrags cc tbl chars fuel
                (nextNonWsIdx cc chars (i + 1)) []
                (quoteUpdate inQ qc (chars.getD i ' ')).1
                (quoteUpdate inQ qc (chars.getD i ' ')).2 with
            | nil => exact absurd h (futureFrags_ne_nil _ _ _ _ _ _ _ _)
            | cons g rest2 =>
              rw [show headAppend ([] : List Char) (g :: rest2) =
                  ([] ++ g) :: rest2 from rfl, List.nil_append]
              rw [show headAppend cur ([chars.getD i ' '] :: g :: rest2) =
                  (cur ++ [chars.getD i ' ']) :: g :: rest2 from rfl]
              rw [show emitList cc ((cur ++ [chars.getD i ' ']) :: g :: rest2) =
                  trimChars cc (cur ++ [chars.getD i ' ']) :: emitList cc (g :: rest2)
                  from rfl]
              rfl
          · rw [ih]
            cases h : futureFrags cc tbl chars fuel (i + 1)
                (cur ++ [chars.getD i ' ']) (quoteUpdate inQ qc (chars.getD i ' ')).1
                (quoteUpdate inQ qc (chars.getD i ' ')).2 with
            | nil => exact absurd h (futureFrags_ne_nil _ _ _ _ _ _ _ _)
            | cons f rest =>
              rw [show consHead (chars.getD i ' ') (f :: rest) =
                  (chars.getD i ' ' :: f) :: rest from rfl]
              rw [show headAppend (cur ++ [chars.getD i ' ']) (f :: rest) =
                  ((cur ++ [chars.getD i ' ']) ++ f) :: rest from rfl]
              rw [show headAppend cur ((chars.getD i ' ' :: f) :: rest) =
                  (cur ++ (chars.getD i ' ' :: f)) :: rest from rfl]
              rw [show cur ++ chars.getD i ' ' :: f =
                  (cur ++ [chars.getD i ' ']) ++ f by simp]
      · rw [ih]
        cases h : futureFrags cc tbl chars fuel (i + 1)
            (cur ++ [chars.getD i ' ']) (quoteUpdate inQ qc (chars.getD i ' ')).1
            (quoteUpdate inQ qc (chars.getD i ' ')).2 with
        | nil => exact absurd h (futureFrags_ne_nil _ _ _ _ _ _ _ _)
        | cons f rest =>
          rw [show consHead (chars.getD i ' ') (f :: rest) =
              (chars.getD i ' ' :: f) :: rest from rfl]
          rw [show headAppend (cur ++ [chars.getD i ' ']) (f :: rest) =
              ((cur ++ [chars.getD i ' ']) ++ f) :: rest from rfl]
          rw [show headAppend cur ((chars.getD i ' ' :: f) :: rest) =
              (cur ++ (chars.getD i ' ' :: f)) :: rest from rfl]
          rw [show cur ++ chars.getD i ' ' :: f =
              (cur ++ [chars.getD i ' ']) ++ f by simp]
    · rw [if_neg hlen, if_neg hlen]
      rw [show headAppend cur [[]] = [cur ++ []] from rfl, List.append_nil]
      rw [show emitList cc [cur] = if cur.isEmpty then [] else [trimChars cc cur] from rfl]
      by_cases hc : cur.isEmpty
      · rw [if_pos hc, if_pos hc]
      · rw [if_neg hc, if_neg hc, List.nil_append]

theorem emitList_eq_map_trim (cc : CharClasses) :
    ∀ (fs : List (List Char)),
      emitList cc fs = (dropEmptyLast fs).map (trimChars cc) := by
  intro fs
  induction fs with
  | nil => rfl
  | cons f rest ih =>
    cases rest with
    | nil =>
      rw [show emitList cc [f] = if f.isEmpty then [] else [trimChars cc f] from rfl]
      unfold dropEmptyLast
      by_cases hf : f = []
      · rw [hf]
        rw [if_pos (by rfl), if_pos (by rfl)]
        rfl
      · rw [if_neg (by simp [hf]), if_neg (by
          simp only [List.getLast?_singleton, Option.some_inj]
          exact fun hcon => hf hcon)]
        rfl
    | cons g rest2 =>
      rw [show emitList cc (f :: g :: rest2) =
          trimChars cc f :: emitList cc (g :: rest2) from rfl, ih]
      have hd : dropEmptyLast (f :: g :: rest2) = f :: dropEmptyLast (g :: rest2) := by
        unfold dropEmptyLast
        by_cases hl : (g :: rest2).getLast? = some []
        · rw [if_pos (by rw [List.getLast?_cons_cons]; exact hl), if_pos hl]
          rw [List.dropLast_cons_of_ne_nil (by simp)]
        · rw [if_neg (by rw [List.getLast?_cons_cons]; exact hl), if_neg hl]
      rw [hd]
      rfl

theorem dropEmptyLast_cons₂ (x y : List Char) (rest : List (List Char)) :
    dropEmptyLast (x :: y :: rest) = x :: dropEmptyLast (y :: rest) := by
  unfold dropEmptyLast
  by_cases hl : (y :: rest).getLast? = some []
  · rw [if_pos (by rw [List.getLast?_cons_cons]; exact hl), if_pos hl]
    rw [List.dropLast_cons_of_ne_nil (by simp)]
  · rw [if_neg (by rw [List.getLast?_cons_cons]; exact hl), if_neg hl]

theorem dropEmptyLast_single_ne (f : List Char) (hf : f ≠ []) :
    dropEmptyLast [f] = [f] := by
  unfold dropEmptyLast
  rw [if_neg (by
    simp only [List.getLast?_singleton, Option.some_inj]
    exact fun hcon => hf hcon)]

theorem dropEmptyLast_head_cons (x : Char) (xs : List Char)
    (rest : List (List Char)) :
    ∃ r2, dropEmptyLast ((x :: xs) :: rest) = (x :: xs) :: r2 := by
  cases rest with
  | nil => exact ⟨[], dropEmptyLast_single_ne _ (by simp)⟩
  | cons g rest2 =>
    exact ⟨dropEmptyLast (g :: rest2), dropEmptyLast_cons₂ _ _ _⟩

theorem joinFrags_cons₂ (x y : List Char) (rest : List (List Char)) :
    joinFrags (x :: y :: rest) = x ++ ' ' :: joinFrags (y :: rest) := rfl

theorem replayRest_consHead (c : Char) (fs : List (List Char)) (hfs : fs ≠ []) :
    replayRest (consHead c fs) = c :: replayRest fs := by
  cases fs with
  | nil => exact absurd rfl hfs
  | cons f rest =>
    rw [show consHead c (f :: rest) = (c :: f) :: rest from rfl]
    unfold replayRest
    cases rest with
    | nil =>
      by_cases hf : f = []
      · rw [hf]
        rw [show dropEmptyLast [[]] = [] by
          unfold dropEmptyLast
          rw [if_pos (by rfl)]
          rfl]
        rw [show dropEmptyLast [[c]] = [[c]] from
          dropEmptyLast_single_ne _ (by simp)]
        rfl
      · rw [dropEmptyLast_single_ne _ hf,
          dropEmptyLast_single_ne _ (by simp)]
        rfl
    | cons g rest2 =>
      rw [dropEmptyLast_cons₂, dropEmptyLast_cons₂]
      rw [show joinFrags ((c :: f) :: dropEmptyLast (g :: rest2)) = _ from rfl]
      cases hd : dropEmptyLast (g :: rest2) with
      | nil =>
        rfl
      | cons h2 r2 =>
        rw [joinFrags_cons₂, joinFrags_cons₂]
        simp

theorem replayRest_split (c : Char) (x : Char) (xs : List Char)
    (rest : List (List Char)) :
    replayRest ([c] :: (x :: xs) :: rest) =
      c :: ' ' :: replayRest ((x :: xs) :: rest) := by
  unfold replayRest
  rw [dropEmptyLast_cons₂]
  obtain ⟨r2, hr2⟩ := dropEmptyLast_head_cons x xs rest
  rw [hr2, joinFrags_cons₂]
  rfl

theorem drop_head_getD (chars : List Char) (j : Nat) (c : Char) (X : List Char)
    (h : chars.drop j = c :: X) :
    chars.getD j ' ' = c ∧ chars.drop (j + 1) = X ∧ j < chars.length := by
  have hlen : j < chars.length := by
    by_contra hcon
    rw [List.drop_eq_nil_of_le (by omega)] at h
    cases h
  refine ⟨?_, ?_, hlen⟩
  · have := getD_drop chars j 0 ' '
    rw [h] at this
    simpa using this.symm
  · have : (chars.drop j).tail = chars.drop (j + 1) := by
      rw [List.tail_drop]
    rw [h] at this
    exact this.symm

theorem nextNonWsIdx_not_ws (cc : CharClasses) (chars : List Char) (j : Nat)
    (h : nextNonWsIdx cc chars j < chars.length) :
    cc.isWhitespace (chars.getD (nextNonWsIdx cc chars j) ' ') = false := by
  unfold nextNonWsIdx at h ⊢
  have hgen : ∀ (L : List Char) (d : Char),
      (L.takeWhile cc.isWhitespace).length < L.length →
      cc.isWhitespace (L.getD (L.takeWhile cc.isWhitespace).length d) = false := by
    intro L
    induction L with
    | nil => intro d h2; simp at h2
    | cons a rest ih =>
      intro d h2
      rw [List.takeWhile_cons] at h2 ⊢
      by_cases ha : cc.isWhitespace a
      · rw [if_pos ha] at h2 ⊢
        simp only [List.length_cons] at h2 ⊢
        have := ih d (by omega)
        simpa using this
      · rw [if_neg ha] at h2 ⊢
        simpa using ha
  have hlen : ((chars.drop j).takeWhile cc.isWhitespace).length <
      (chars.drop j).length := by
    rw [List.length_drop]
    omega
  have := hgen (chars.drop j) ' ' hlen
  rw [getD_drop] at this
  exact this

theorem getD_prefix (f L : List Char) (hp : f <+: L) (k : Nat) (hk : k < f.length)
    (d : Char) : L.getD k d = f.getD k d := by
  obtain ⟨v, hv⟩ := hp
  subst hv
  rw [List.getD_eq_get?, List.getD_eq_get?, List.get?_append hk]

theorem takeWhile_append_stop (p : Char → Bool) (u v : List Char)
    (h : (u.takeWhile p).length < u.length) :
    (u ++ v).takeWhile p = u.takeWhile p := by
  induction u with
  | nil => simp at h
  | cons a rest ih =>
    rw [List.cons_append, List.takeWhile_cons, List.takeWhile_cons]
    by_cases ha : p a
    · rw [if_pos ha, if_pos ha]
      rw [List.takeWhile_cons, if_pos ha] at h
      simp only [List.length_cons] at h
      rw [ih (by omega)]
    · rw [if_neg ha, if_neg ha]

theorem takeWhile_all_append (p : Char → Bool) (u v : List Char)
    (h : ∀ x ∈ u, p x = true) :
    (u ++ v).takeWhile p = u ++ v.takeWhile p := by
  induction u with
  | nil => simp
  | cons a rest ih =>
    rw [List.cons_append, List.takeWhile_cons,
      if_pos (h a (List.mem_cons_self a rest))]
    rw [ih (fun x hx => h x (List.mem_cons_of_mem a hx))]
    rfl

theorem boundaryAt_congr (cc : CharClasses) (tbl : List (String × PrefixType))
    (chars1 chars2 : List Char) (i j : Nat) (cur : List Char) (inQ : Bool)
    (nci1 nci2 : Nat)
    (hin : (nci1 < chars1.length) = (nci2 < chars2.length))
    (hnc : nci1 < chars1.length → chars1.getD nci1 ' ' = chars2.getD nci2 ' ')
    (hprev : (0 < i ∧ chars1.getD (i - 1) ' ' = ')') ↔
      (0 < j ∧ chars2.getD (j - 1) ' ' = ')')) :
    boundaryAt cc tbl chars1 i cur inQ nci1 =
      boundaryAt cc tbl chars2 j cur inQ nci2 := by
  unfold boundaryAt
  by_cases h1 : nci1 < chars1.length
  · have h2 : nci2 < chars2.length := by rw [← hin]; exact h1
    rw [if_pos h1, if_pos h2, hnc h1]
    by_cases hq : inQ
    · simp [hq]
    · simp only [hq, Bool.false_eq_true, if_false]
      by_cases hp : 0 < i ∧ chars1.getD (i - 1) ' ' = ')'
      · rw [if_pos hp, if_pos (hprev.mp hp)]
      · rw [if_neg hp, if_neg (fun hcon => hp (hprev.mpr hcon))]
  · have h2 : ¬ nci2 < chars2.length := by rw [← hin]; exact h1
    rw [if_neg h1, if_neg h2]

theorem getLastD_cons_ne (c : Char) (xs : List Char) (d : Char) (h : xs ≠ []) :
    (c :: xs).getLastD d = xs.getLastD d := by
  cases xs with
  | nil => exact absurd rfl h
  | cons y ys =>
    simp only [List.getLastD_cons]

theorem futureFrags_head_prefix (cc : CharClasses)
    (tbl : List (String × PrefixType)) (chars : List Char) :
    ∀ (fuel i : Nat) (cur : List Char) (inQ : Bool) (qc : Char)
      (f : List Char) (rest : List (List Char)),
      futureFrags cc tbl chars fuel i cur inQ qc = f :: rest →
      f <+: chars.drop i := by
  intro fuel
  induction fuel with
  | zero =>
    intro i cur inQ qc f rest h
    rw [futureFrags] at h
    cases h
    exact List.nil_prefix
  | succ fuel ih =>
    intro i cur inQ qc f rest h
    rw [futureFrags] at h
    by_cases hlen : i + 1 < chars.length
    · rw [if_pos hlen] at h
      dsimp only at h
      have hdropi : chars.drop i = chars.getD i ' ' :: chars.drop (i + 1) :=
        drop_eq_getD_cons chars i ' ' (by omega)
      split at h
      · split at h
        · cases hF : futureFrags cc tbl chars fuel (i + 1)
              (cur ++ [chars.getD i ' ']) (quoteUpdate inQ qc (chars.getD i ' ')).1
              (quoteUpdate inQ qc (chars.getD i ' ')).2 with
          | nil => exact absurd hF (futureFrags_ne_nil _ _ _ _ _ _ _ _)
          | cons f2 rest2 =>
            rw [hF] at h
            rw [show consHead (chars.getD i ' ') (f2 :: rest2) =
                (chars.getD i ' ' :: f2) :: rest2 from rfl] at h
            injection h with h1 h2
            subst h1
            obtain ⟨v, hv⟩ := ih _ _ _ _ f2 rest2 hF
            exact ⟨v, by rw [hdropi, ← hv]; rfl⟩
        · split at h
          · injection h with h1 h2
            subst h1
            exact ⟨chars.drop (i + 1), by rw [hdropi]; rfl⟩
          · cases hF : futureFrags cc tbl chars fuel (i + 1)
                (cur ++ [chars.getD i ' ']) (quoteUpdate inQ qc (chars.getD i ' ')).1
                (quoteUpdate inQ qc (chars.getD i ' ')).2 with
            | nil => exact absurd hF (futureFrags_ne_nil _ _ _ _ _ _ _ _)
            | cons f2 rest2 =>
              rw [hF] at h
              rw [show consHead (chars.getD i ' ') (f2 :: rest2) =
                  (chars.getD i ' ' :: f2) :: rest2 from rfl] at h
              injection h with h1 h2
              subst h1
              obtain ⟨v, hv⟩ := ih _ _ _ _ f2 rest2 hF
              exact ⟨v, by rw [hdropi, ← hv]; rfl⟩
      · cases hF : futureFrags cc tbl chars fuel (i + 1)
            (cur ++ [chars.getD i ' ']) (quoteUpdate inQ qc (chars.getD i ' ')).1
            (quoteUpdate inQ qc (chars.getD i ' ')).2 with
        | nil => exact absurd hF (futureFrags_ne_nil _ _ _ _ _ _ _ _)
        | cons f2 rest2 =>
          rw [hF] at h
          rw [show consHead (chars.getD i ' ') (f2 :: rest2) =
              (chars.getD i ' ' :: f2) :: rest2 from rfl] at h
          injection h with h1 h2
          subst h1
          obtain ⟨v, hv⟩ := ih _ _ _ _ f2 rest2 hF
          exact ⟨v, by rw [hdropi, ← hv]; rfl⟩
    · rw [if_neg hlen] at h
      cases h
      exact List.nil_prefix

theorem futureFrags_head_cons (cc : CharClasses)
    (tbl : List (String × PrefixType)) (chars : List Char)
    (fuel i : Nat) (cur : List Char) (inQ : Bool) (qc : Char)
    (hlen : i + 1 < chars.length) :
    ∃ f rest, futureFrags cc tbl chars (fuel + 1) i cur inQ qc =
      (chars.getD i ' ' :: f) :: rest := by
  rw [futureFrags, if_pos hlen]
  dsimp only
  split
  · split
    · cases hF : futureFrags cc tbl chars fuel (i + 1)
          (cur ++ [chars.getD i ' ']) (quoteUpdate inQ qc (chars.getD i ' ')).1
          (quoteUpdate inQ qc (chars.getD i ' ')).2 with
      | nil => exact absurd hF (futureFrags_ne_nil _ _ _ _ _ _ _ _)
      | cons f2 rest2 => exact ⟨f2, rest2, rfl⟩
    · split
      · exact ⟨[], _, rfl⟩
      · cases hF : futureFrags cc tbl chars fuel (i + 1)
            (cur ++ [chars.getD i ' ']) (quoteUpdate inQ qc (chars.getD i ' ')).1
            (quoteUpdate inQ qc (chars.getD i ' ')).2 with
        | nil => exact absurd hF (futureFrags_ne_nil _ _ _ _ _ _ _ _)
        | cons f2 rest2 => exact ⟨f2, rest2, rfl⟩
  · cases hF : futureFrags cc tbl chars fuel (i + 1)
        (cur ++ [chars.getD i ' ']) (quoteUpdate inQ qc (chars.getD i ' ')).1
        (quoteUpdate inQ qc (chars.getD i ' ')).2 with
    | nil => exact absurd hF (futureFrags_ne_nil _ _ _ _ _ _ _ _)
    | cons f2 rest2 => exact ⟨f2, rest2, rfl⟩

theorem futureFrags_multi_term (cc : CharClasses)
    (tbl : List (String × PrefixType)) (chars : List Char) :
    ∀ (fuel i : Nat) (cur : List Char) (inQ : Bool) (qc : Char)
      (f g : List Char) (rest : List (List Char)),
      futureFrags cc tbl chars fuel i cur inQ qc = f :: g :: rest →
      f ≠ [] ∧ (f.getLastD ' ' = '.' ∨ f.getLastD ' ' = '?' ∨
        f.getLastD ' ' = '!') := by
  intro fuel
  induction fuel with
  | zero =>
    intro i cur inQ qc f g rest h
    rw [futureFrags] at h
    cases h
  | succ fuel ih =>
    intro i cur inQ qc f g rest h
    rw [futureFrags] at h
    by_cases hlen : i + 1 < chars.length
    · rw [if_pos hlen] at h
      dsimp only at h
      split at h
      · rename_i hterm
        split at h
        · cases hF : futureFrags cc tbl chars fuel (i + 1)
              (cur ++ [chars.getD i ' ']) (quoteUpdate inQ qc (chars.getD i ' ')).1
              (quoteUpdate inQ qc (chars.getD i ' ')).2 with
          | nil => exact absurd hF (futureFrags_ne_nil _ _ _ _ _ _ _ _)
          | cons f2 rest2 =>
            rw [hF] at h
            rw [show consHead (chars.getD i ' ') (f2 :: rest2) =
                (chars.getD i ' ' :: f2) :: rest2 from rfl] at h
            injection h with h1 h2
            subst h1
            cases rest2 with
            | nil => cases h2
            | cons g2 rest3 =>
              obtain ⟨hne, hlast⟩ := ih _ _ _ _ f2 g2 rest3 hF
              refine ⟨by simp, ?_⟩
              rw [getLastD_cons_ne _ _ _ hne]
              exact hlast
        · split at h
          · rename_i hb
            injection h with h1 h2
            subst h1
            refine ⟨by simp, ?_⟩
            rw [show ([chars.getD i ' ']).getLastD ' ' = chars.getD i ' ' from rfl]
            rcases Bool.or_eq_true_iff.mp hterm with h3 | h3
            · rcases Bool.or_eq_true_iff.mp h3 with h4 | h4
              · left; exact beq_iff_eq.mp h4
              · right; left; exact beq_iff_eq.mp h4
            · right; right; exact beq_iff_eq.mp h3
          · cases hF : futureFrags cc tbl chars fuel (i + 1)
                (cur ++ [chars.getD i ' ']) (quoteUpdate inQ qc (chars.getD i ' ')).1
                (quoteUpdate inQ qc (chars.getD i ' ')).2 with
            | nil => exact absurd hF (futureFrags_ne_nil _ _ _ _ _ _ _ _)
            | cons f2 rest2 =>
              rw [hF] at h
              rw [show consHead (chars.getD i ' ') (f2 :: rest2) =
                  (chars.getD i ' ' :: f2) :: rest2 from rfl] at h
              injection h with h1 h2
              subst h1
              cases rest2 with
              | nil => cases h2
              | cons g2 rest3 =>
                obtain ⟨hne, hlast⟩ := ih _ _ _ _ f2 g2 rest3 hF
                refine ⟨by simp, ?_⟩
                rw [getLastD_cons_ne _ _ _ hne]
                exact hlast
      · cases hF : futureFrags cc tbl chars fuel (i + 1)
            (cur ++ [chars.getD i ' ']) (quoteUpdate inQ qc (chars.getD i ' ')).1
            (quoteUpdate inQ qc (chars.getD i ' ')).2 with
        | nil => exact absurd hF (futureFrags_ne_nil _ _ _ _ _ _ _ _)
        | cons f2 rest2 =>
          rw [hF] at h
          rw [show consHead (chars.getD i ' ') (f2 :: rest2) =
              (chars.getD i ' ' :: f2) :: rest2 from rfl] at h
          injection h with h1 h2
          subst h1
          cases rest2 with
          | nil => cases h2
          | cons g2 rest3 =>
            obtain ⟨hne, hlast⟩ := ih _ _ _ _ f2 g2 rest3 hF
            refine ⟨by simp, ?_⟩
            rw [getLastD_cons_ne _ _ _ hne]
            exact hlast
    · rw [if_neg hlen] at h
      cases h

theorem futureFrags_single_covers (cc : CharClasses)
    (tbl : List (String × PrefixType)) (chars : List Char) :
    ∀ (fuel i : Nat) (cur : List Char) (inQ : Bool) (qc : Char) (f : List Char),
      chars.length ≤ i + fuel + 1 → i ≤ chars.length - 1 →
      futureFrags cc tbl chars fuel i cur inQ qc = [f] →
      i + f.length = chars.length - 1 := by
  intro fuel
  induction fuel with
  | zero =>
    intro i cur inQ qc f hfuel hi h
    rw [futureFrags] at h
    injection h with h1 h2
    subst h1
    simp only [List.length_nil]
    omega
  | succ fuel ih =>
    intro i cur inQ qc f hfuel hi h
    rw [futureFrags] at h
    by_cases hlen : i + 1 < chars.length
    · rw [if_pos hlen] at h
      dsimp only at h
      split at h
      · split at h
        · cases hF : futureFrags cc tbl chars fuel (i + 1)
              (cur ++ [chars.getD i ' ']) (quoteUpdate inQ qc (chars.getD i ' ')).1
              (quoteUpdate inQ qc (chars.getD i ' ')).2 with
          | nil => exact absurd hF (futureFrags_ne_nil _ _ _ _ _ _ _ _)
          | cons f2 rest2 =>
            rw [hF] at h
            rw [show consHead (chars.getD i ' ') (f2 :: rest2) =
                (chars.getD i ' ' :: f2) :: rest2 from rfl] at h
            injection h with h1 h2
            subst h1
            subst h2
            have := ih (i + 1) _ _ _ f2 (by omega) (by omega) hF
            simp only [List.length_cons]
            omega
        · split at h
          · injection h with h1 h2
            exact absurd h2 (futureFrags_ne_nil _ _ _ _ _ _ _ _)
          · cases hF : futureFrags cc tbl chars fuel (i + 1)
                (cur ++ [chars.getD i ' ']) (quoteUpdate inQ qc (chars.getD i ' ')).1
                (quoteUpdate inQ qc (chars.getD i ' ')).2 with
            | nil => exact absurd hF (futureFrags_ne_nil _ _ _ _ _ _ _ _)
            | cons f2 rest2 =>
              rw [hF] at h
              rw [show consHead (chars.getD i ' ') (f2 :: rest2) =
                  (chars.getD i ' ' :: f2) :: rest2 from rfl] at h
              injection h with h1 h2
              subst h1
              subst h2
              have := ih (i + 1) _ _ _ f2 (by omega) (by omega) hF
              simp only [List.length_cons]
              omega
      · cases hF : futureFrags cc tbl chars fuel (i + 1)
            (cur ++ [chars.getD i ' ']) (quoteUpdate inQ qc (chars.getD i ' ')).1
            (quoteUpdate inQ qc (chars.getD i ' ')).2 with
        | nil => exact absurd hF (futureFrags_ne_nil _ _ _ _ _ _ _ _)
        | cons f2 rest2 =>
          rw [hF] at h
          rw [show consHead (chars.getD i ' ') (f2 :: rest2) =
              (chars.getD i ' ' :: f2) :: rest2 from rfl] at h
          injection h with h1 h2
          subst h1
          subst h2
          have := ih (i + 1) _ _ _ f2 (by omega) (by omega) hF
          simp only [List.length_cons]
          omega
    · rw [if_neg hlen] at h
      injection h with h1 h2
      subst h1
      simp only [List.length_nil]
      omega

theorem noWsPair_tail (cc : CharClasses) (a : Char) (l : List Char)
    (h : noWsPair cc (a :: l) = true) : noWsPair cc l = true := by
  cases l with
  | nil => rfl
  | cons b r =>
    rw [show noWsPair cc (a :: b :: r) =
      (!(cc.isWhitespace a && cc.isWhitespace b) && noWsPair cc (b :: r))
      from rfl] at h
    exact (Bool.and_eq_true_iff.mp h).2

theorem noWsPair_suffix (cc : CharClasses) (u v : List Char)
    (h : noWsPair cc (u ++ v) = true) : noWsPair cc v = true := by
  induction u with
  | nil => exact h
  | cons a u2 ih => exact ih (noWsPair_tail cc a _ h)

theorem noWsPair_front (cc : CharClasses) :
    ∀ (u v : List Char), noWsPair cc (u ++ v) = true → noWsPair cc u = true := by
  intro u
  induction u with
  | nil => intro v _; rfl
  | cons a u2 ih =>
    intro v h
    cases u2 with
    | nil => rfl
    | cons b u3 =>
      rw [show (a :: b :: u3) ++ v = a :: b :: (u3 ++ v) from rfl] at h
      rw [show noWsPair cc (a :: b :: (u3 ++ v)) =
        (!(cc.isWhitespace a && cc.isWhitespace b) && noWsPair cc (b :: (u3 ++ v)))
        from rfl] at h
      obtain ⟨h1, h2⟩ := Bool.and_eq_true_iff.mp h
      rw [show noWsPair cc (a :: b :: u3) =
        (!(cc.isWhitespace a && cc.isWhitespace b) && noWsPair cc (b :: u3))
        from rfl]
      rw [h1, Bool.true_and]
      exact ih v h2

theorem noWsPair_cons_safe (cc : CharClasses) (c : Char) (l : List Char)
    (hl : noWsPair cc l = true)
    (hpair : l = [] ∨ (cc.isWhitespace c && cc.isWhitespace (l.headD ' ')) = false) :
    noWsPair cc (c :: l) = true := by
  cases l with
  | nil => rfl
  | cons b r =>
    rcases hpair with h | h
    · cases h
    · rw [show noWsPair cc (c :: b :: r) =
        (!(cc.isWhitespace c && cc.isWhitespace b) && noWsPair cc (b :: r))
        from rfl]
      rw [show (b :: r).headD ' ' = b from rfl] at h
      rw [h]
      rw [hl]
      rfl

theorem collapseAux_true_cons (cc : CharClasses) (c : Char) (rest : List Char) :
    collapseAux cc true (c :: rest) =
      if cc.isWhitespace c then collapseAux cc true rest
      else c :: collapseAux cc false rest := by
  simp only [collapseAux]
  by_cases hc : cc.isWhitespace c
  · rw [if_pos hc, if_pos hc]
    simp
  · rw [if_neg hc, if_neg hc]

theorem collapseAux_false_cons (cc : CharClasses) (c : Char) (rest : List Char) :
    collapseAux cc false (c :: rest) =
      if cc.isWhitespace c then
        (match rest with
         | [] => [c]
         | d :: _ =>
           if cc.isWhitespace d then ' ' :: collapseAux cc true rest
           else c :: collapseAux cc false rest)
      else c :: collapseAux cc false rest := by
  simp only [collapseAux]
  by_cases hc : cc.isWhitespace c
  · rw [if_pos hc, if_pos hc]
    simp
  · rw [if_neg hc, if_neg hc]

theorem collapse_true_head (cc : CharClasses) :
    ∀ (l : List Char), collapseAux cc true l = [] ∨
      cc.isWhitespace ((collapseAux cc true l).headD ' ') = false := by
  intro l
  induction l with
  | nil => left; rfl
  | cons c rest ih =>
    rw [collapseAux_true_cons]
    by_cases hc : cc.isWhitespace c
    · rw [if_pos hc]
      exact ih
    · rw [if_neg hc]
      right
      simpa using hc

theorem collapse_noWsPair (cc : CharClasses) :
    ∀ (l : List Char), noWsPair cc (collapseAux cc false l) = true ∧
      noWsPair cc (collapseAux cc true l) = true := by
  intro l
  induction l with
  | nil => exact ⟨rfl, rfl⟩
  | cons c rest ih =>
    constructor
    · rw [collapseAux_false_cons]
      by_cases hc : cc.isWhitespace c
      · rw [if_pos hc]
        cases rest with
        | nil => rfl
        | cons d r2 =>
          dsimp only
          by_cases hd : cc.isWhitespace d
          · rw [if_pos hd]
            apply noWsPair_cons_safe cc ' ' _ ih.2
            rcases collapse_true_head cc (d :: r2) with h | h
            · left; exact h
            · right; rw [h]; simp
          · rw [if_neg hd]
            apply noWsPair_cons_safe cc c _ ih.1
            right
            rw [collapseAux_false_cons, if_neg hd]
            rw [show ((d :: collapseAux cc false r2).headD ' ') = d from rfl]
            have hd2 : cc.isWhitespace d = false := Bool.eq_false_iff.mpr hd
            simp [hd2]
      · rw [if_neg hc]
        apply noWsPair_cons_safe cc c _ ih.1
        right
        have hc2 : cc.isWhitespace c = false := Bool.eq_false_iff.mpr hc
        simp [hc2]
    · rw [collapseAux_true_cons]
      by_cases hc : cc.isWhitespace c
      · rw [if_pos hc]
        exact ih.2
      · rw [if_neg hc]
        apply noWsPair_cons_safe cc c _ ih.1
        right
        have hc2 : cc.isWhitespace c = false := Bool.eq_false_iff.mpr hc
        simp [hc2]

theorem collapse_fixed (cc : CharClasses) :
    ∀ (l : List Char), noWsPair cc l = true → collapseAux cc false l = l := by
  intro l
  induction l with
  | nil => intro _; rfl
  | cons c rest ih =>
    intro h
    rw [collapseAux_false_cons]
    by_cases hc : cc.isWhitespace c
    · rw [if_pos hc]
      cases rest with
      | nil => rfl
      | cons d r2 =>
        dsimp only
        have hpair : (cc.isWhitespace c && cc.isWhitespace d) = false := by
          rw [show noWsPair cc (c :: d :: r2) =
            (!(cc.isWhitespace c && cc.isWhitespace d) && noWsPair cc (d :: r2))
            from rfl] at h
          have := (Bool.and_eq_true_iff.mp h).1
          rwa [Bool.not_eq_true'] at this
        have hd : cc.isWhitespace d = false := by
          rw [hc] at hpair
          simpa using hpair
        rw [if_neg (by rw [hd]; exact fun hcon => Bool.false_ne_true hcon)]
        rw [ih (noWsPair_tail cc c _ h)]
    · rw [if_neg hc]
      rw [ih (noWsPair_tail cc c _ h)]

theorem trim_prefix_dropWhile (cc : CharClasses) (l : List Char) :
    ∃ u, trimChars cc l ++ u = l.dropWhile cc.isWhitespace := by
  unfold trimChars
  refine ⟨((l.dropWhile cc.isWhitespace).reverse.takeWhile cc.isWhitespace).reverse, ?_⟩
  rw [← List.reverse_append]
  rw [List.takeWhile_append_dropWhile]
  rw [List.reverse_reverse]

theorem noWsPair_trim (cc : CharClasses) (l : List Char)
    (h : noWsPair cc l = true) : noWsPair cc (trimChars cc l) = true := by
  have hm : noWsPair cc (l.dropWhile cc.isWhitespace) = true := by
    have hsplit := List.takeWhile_append_dropWhile cc.isWhitespace l
    exact noWsPair_suffix cc (l.takeWhile cc.isWhitespace) _ (by rwa [hsplit])
  obtain ⟨u, hu⟩ := trim_prefix_dropWhile cc l
  exact noWsPair_front cc _ u (by rwa [hu])

theorem trim_head_not_ws (cc : CharClasses) (l : List Char) (x : Char)
    (xs : List Char) (h : trimChars cc l = x :: xs) :
    cc.isWhitespace x = false := by
  obtain ⟨u, hu⟩ := trim_prefix_dropWhile cc l
  rw [h] at hu
  exact dropWhile_head_false hu.symm

theorem getLastD_concat_char (u : List Char) (y d : Char) :
    (u ++ [y]).getLastD d = y := by
  induction u with
  | nil => rfl
  | cons a u2 ih =>
    rw [List.cons_append, getLastD_cons_ne _ _ _ (by simp)]
    exact ih

theorem trim_last_not_ws (cc : CharClasses) (l : List Char)
    (h : trimChars cc l ≠ []) :
    cc.isWhitespace ((trimChars cc l).getLastD ' ') = false := by
  unfold trimChars at h ⊢
  cases hd : List.dropWhile cc.isWhitespace (l.dropWhile cc.isWhitespace).reverse with
  | nil => rw [hd] at h; exact absurd rfl h
  | cons y ys =>
    rw [List.reverse_cons, getLastD_concat_char]
    exact dropWhile_head_false hd

theorem headD_reverse (l : List Char) (d : Char) :
    l.reverse.headD d = l.getLastD d := by
  induction l with
  | nil => rfl
  | cons a l2 ih =>
    rw [List.reverse_cons]
    cases l2 with
    | nil => rfl
    | cons b l3 =>
      rw [getLastD_cons_ne _ _ _ (by simp), ← ih]
      cases hrev : (b :: l3).reverse with
      | nil => simp at hrev
      | cons y ys => rfl

theorem trim_fixed_ends (cc : CharClasses) (l : List Char)
    (h : l = [] ∨ (cc.isWhitespace (l.headD ' ') = false ∧
      cc.isWhitespace (l.getLastD ' ') = false)) :
    trimChars cc l = l := by
  rcases h with h | ⟨h1, h2⟩
  · rw [h]; rfl
  · unfold trimChars
    have hdw : l.dropWhile cc.isWhitespace = l := by
      cases l with
      | nil => rfl
      | cons x xs =>
        rw [List.dropWhile_cons, if_neg (by
          rw [show (x :: xs).headD ' ' = x from rfl] at h1
          rw [h1]
          exact fun hcon => Bool.false_ne_true hcon)]
    rw [hdw]
    have hdw2 : l.reverse.dropWhile cc.isWhitespace = l.reverse := by
      cases hrev : l.reverse with
      | nil => rfl
      | cons y ys =>
        rw [List.dropWhile_cons, if_neg (by
          have : l.reverse.headD ' ' = y := by rw [hrev]; rfl
          rw [headD_reverse] at this
          rw [this] at h2
          rw [h2]
          exact fun hcon => Bool.false_ne_true hcon)]
    rw [hdw2, List.reverse_reverse]

theorem getD_concat_self (t : List Char) (x d : Char) :
    (t ++ [x]).getD t.length d = x := by
  rw [List.getD_eq_get?, List.get?_append_right (Nat.le_refl _)]
  simp

theorem getD_append_left (t : List Char) (v : List Char) (k : Nat) (d : Char)
    (h : k < t.length) : (t ++ v).getD k d = t.getD k d := by
  rw [List.getD_eq_get?, List.getD_eq_get?, List.get?_append h]

theorem noWsPair_drop (cc : CharClasses) (l : List Char) (k : Nat)
    (h : noWsPair cc l = true) : noWsPair cc (l.drop k) = true := by
  have := List.take_append_drop k l
  exact noWsPair_suffix cc (l.take k) _ (by rwa [this])

theorem headD_append_ne (u v : List Char) (d : Char) (h : u ≠ []) :
    (u ++ v).headD d = u.headD d := by
  cases u with
  | nil => exact absurd rfl h
  | cons a u2 => rfl

theorem getLastD_append_ne (u v : List Char) (d : Char) (h : v ≠ []) :
    (u ++ v).getLastD d = v.getLastD d := by
  induction u with
  | nil => rfl
  | cons a u2 ih =>
    rw [List.cons_append, getLastD_cons_ne _ _ _ (by
      intro hcon
      rw [List.append_eq_nil] at hcon
      exact h hcon.2)]
    exact ih

theorem futureFrags_shape (cc : CharClasses) (tbl : List (String × PrefixType))
    (chars : List Char)
    (Ht1 : cc.isWhitespace '.' = false) (Ht2 : cc.isWhitespace '?' = false)
    (Ht3 : cc.isWhitespace '!' = false)
    (Hlast : 2 ≤ chars.length →
      cc.isWhitespace (chars.getD (chars.length - 2) ' ') = false) :
    ∀ (fuel i : Nat) (cur : List Char) (inQ : Bool) (qc : Char),
      chars.length ≤ i + fuel + 1 →
      i ≤ chars.length - 1 →
      (cur ≠ [] → cc.isWhitespace (cur.headD ' ') = false) →
      (cur ≠ [] → cur.getLastD ' ' = chars.getD (i - 1) ' ') →
      (cur ≠ [] → 1 ≤ i) →
      (cur = [] → i + 1 < chars.length →
        cc.isWhitespace (chars.getD i ' ') = false) →
      noWsPair cc (cur ++ chars.drop i) = true →
      ∀ g ∈ headAppend cur (futureFrags cc tbl chars fuel i cur inQ qc),
        noWsPair cc g = true ∧
        (g ≠ [] → cc.isWhitespace (g.headD ' ') = false ∧
          cc.isWhitespace (g.getLastD ' ') = false) := by
  intro fuel
  induction fuel with
  | zero =>
    intro i cur inQ qc hfuel hbound hhead hlastc hpos hstart hpair g hg
    rw [futureFrags] at hg
    rw [show headAppend cur [[]] = [cur ++ []] from rfl, List.append_nil] at hg
    rcases List.mem_singleton.mp hg with rfl
    refine ⟨noWsPair_front cc _ _ hpair, ?_⟩
    intro hne
    refine ⟨hhead hne, ?_⟩
    have hi : i = chars.length - 1 := by omega
    have h1i := hpos hne
    rw [hlastc hne, hi]
    exact Hlast (by omega)
  | succ fuel ih =>
    intro i cur inQ qc hfuel hbound hhead hlastc hpos hstart hpair g hg
    rw [futureFrags] at hg
    by_cases hlen : i + 1 < chars.length
    · rw [if_pos hlen] at hg
      dsimp only at hg
      have hdropi : chars.drop i = chars.getD i ' ' :: chars.drop (i + 1) :=
        drop_eq_getD_cons chars i ' ' (by omega)
      have hassoc : cur ++ chars.drop i =
          (cur ++ [chars.getD i ' ']) ++ chars.drop (i + 1) := by
        rw [hdropi]
        simp
      -- facts for the non-split recursive configuration
      have hih : ∀ g2 ∈ headAppend (cur ++ [chars.getD i ' '])
          (futureFrags cc tbl chars fuel (i + 1) (cur ++ [chars.getD i ' '])
            (quoteUpdate inQ qc (chars.getD i ' ')).1
            (quoteUpdate inQ qc (chars.getD i ' ')).2),
          noWsPair cc g2 = true ∧
          (g2 ≠ [] → cc.isWhitespace (g2.headD ' ') = false ∧
            cc.isWhitespace (g2.getLastD ' ') = false) := by
        apply ih (i + 1) (cur ++ [chars.getD i ' ']) _ _ (by omega) (by omega)
        · intro _
          by_cases hc : cur = []
          · rw [hc, List.nil_append]
            rw [show ([chars.getD i ' ']).headD ' ' = chars.getD i ' ' from rfl]
            exact hstart hc hlen
          · rw [headD_append_ne _ _ _ hc]
            exact hhead hc
        · intro _
          rw [getLastD_concat_char]
          rw [Nat.add_sub_cancel]
        · intro _; omega
        · intro hcon
          exact absurd hcon (by simp)
        · rw [← hassoc]
          exact hpair
      split at hg
      · rename_i hterm
        split at hg
        · -- acronym branch
          cases hF : futureFrags cc tbl chars fuel (i + 1)
              (cur ++ [chars.getD i ' ']) (quoteUpdate inQ qc (chars.getD i ' ')).1
              (quoteUpdate inQ qc (chars.getD i ' ')).2 with
          | nil => exact absurd hF (futureFrags_ne_nil _ _ _ _ _ _ _ _)
          | cons f2 rest2 =>
            rw [hF] at hg
            rw [show consHead (chars.getD i ' ') (f2 :: rest2) =
                (chars.getD i ' ' :: f2) :: rest2 from rfl] at hg
            rw [show headAppend cur ((chars.getD i ' ' :: f2) :: rest2) =
                (cur ++ (chars.getD i ' ' :: f2)) :: rest2 from rfl] at hg
            rw [hF] at hih
            rw [show headAppend (cur ++ [chars.getD i ' ']) (f2 :: rest2) =
                ((cur ++ [chars.getD i ' ']) ++ f2) :: rest2 from rfl] at hih
            rcases List.mem_cons.mp hg with rfl | hmem
            · have := hih ((cur ++ [chars.getD i ' ']) ++ f2)
                (List.mem_cons_self _ _)
              rw [show (cur ++ [chars.getD i ' ']) ++ f2 =
                  cur ++ (chars.getD i ' ' :: f2) by simp] at this
              exact this
            · exact hih g (List.mem_cons_of_mem _ hmem)
        · split at hg
          · -- split branch
            rename_i hb
            have hnci : nextNonWsIdx cc chars (i + 1) < chars.length :=
              boundaryAt_true_lt _ _ _ _ _ _ _ hb
            rw [show headAppend cur
                ([chars.getD i ' '] :: futureFrags cc tbl chars fuel
                  (nextNonWsIdx cc chars (i + 1)) []
                  (quoteUpdate inQ qc (chars.getD i ' ')).1
                  (quoteUpdate inQ qc (chars.getD i ' ')).2) =
                (cur ++ [chars.getD i ' ']) :: futureFrags cc tbl chars fuel
                  (nextNonWsIdx cc chars (i + 1)) []
                  (quoteUpdate inQ qc (chars.getD i ' ')).1
                  (quoteUpdate inQ qc (chars.getD i ' ')).2 from rfl] at hg
            rcases List.mem_cons.mp hg with rfl | hmem
            · refine ⟨?_, ?_⟩
              · apply noWsPair_front cc _ (chars.drop (i + 1))
                rw [← hassoc]
                exact hpair
              · intro _
                constructor
                · by_cases hc : cur = []
                  · rw [hc, List.nil_append]
                    rw [show ([chars.getD i ' ']).headD ' ' = chars.getD i ' '
                      from rfl]
                    exact hstart hc hlen
                  · rw [headD_append_ne _ _ _ hc]
                    exact hhead hc
                · rw [getLastD_concat_char]
                  rcases Bool.or_eq_true_iff.mp hterm with h3 | h3
                  · rcases Bool.or_eq_true_iff.mp h3 with h4 | h4
                    · rw [beq_iff_eq.mp h4]; exact Ht1
                    · rw [beq_iff_eq.mp h4]; exact Ht2
                  · rw [beq_iff_eq.mp h3]; exact Ht3
            · -- members of the later fragments
              have hihs : ∀ g2 ∈ headAppend ([] : List Char)
                  (futureFrags cc tbl chars fuel (nextNonWsIdx cc chars (i + 1)) []
                    (quoteUpdate inQ qc (chars.getD i ' ')).1
                    (quoteUpdate inQ qc (chars.getD i ' ')).2),
                  noWsPair cc g2 = true ∧
                  (g2 ≠ [] → cc.isWhitespace (g2.headD ' ') = false ∧
                    cc.isWhitespace (g2.getLastD ' ') = false) := by
                apply ih (nextNonWsIdx cc chars (i + 1)) [] _ _
                  (by
                    have := nextNonWsIdx_ge cc chars (i + 1)
                    omega)
                  (by omega)
                · intro hcon; exact absurd rfl hcon
                · intro hcon; exact absurd rfl hcon
                · intro hcon; exact absurd rfl hcon
                · intro _ hlen2
                  exact nextNonWsIdx_not_ws cc chars (i + 1) hnci
                · rw [List.nil_append]
                  have h1 : noWsPair cc (chars.drop i) = true :=
                    noWsPair_suffix cc cur _ hpair
                  have h2 : chars.drop (nextNonWsIdx cc chars (i + 1)) =
                      (chars.drop i).drop (nextNonWsIdx cc chars (i + 1) - i) := by
                    rw [List.drop_drop]
                    congr 1
                    have := nextNonWsIdx_ge cc chars (i + 1)
                    omega
                  rw [h2]
                  exact noWsPair_drop cc _ _ h1
              cases hF : futureFrags cc tbl chars fuel
                  (nextNonWsIdx cc chars (i + 1)) []
                  (quoteUpdate inQ qc (chars.getD i ' ')).1
                  (quoteUpdate inQ qc (chars.getD i ' ')).2 with
              | nil => exact absurd hF (futureFrags_ne_nil _ _ _ _ _ _ _ _)
              | cons f2 rest2 =>
                rw [hF] at hmem hihs
                rw [show headAppend ([] : List Char) (f2 :: rest2) =
                    ([] ++ f2) :: rest2 from rfl, List.nil_append] at hihs
                exact hihs g hmem
          · -- non-split terminator branch
            cases hF : futureFrags cc tbl chars fuel (i + 1)
                (cur ++ [chars.getD i ' ']) (quoteUpdate inQ qc (chars.getD i ' ')).1
                (quoteUpdate inQ qc (chars.getD i ' ')).2 with
            | nil => exact absurd hF (futureFrags_ne_nil _ _ _ _ _ _ _ _)
            | cons f2 rest2 =>
              rw [hF] at hg
              rw [show consHead (chars.getD i ' ') (f2 :: rest2) =
                  (chars.getD i ' ' :: f2) :: rest2 from rfl] at hg
              rw [show headAppend cur ((chars.getD i ' ' :: f2) :: rest2) =
                  (cur ++ (chars.getD i ' ' :: f2)) :: rest2 from rfl] at hg
              rw [hF] at hih
              rw [show headAppend (cur ++ [chars.getD i ' ']) (f2 :: rest2) =
                  ((cur ++ [chars.getD i ' ']) ++ f2) :: rest2 from rfl] at hih
              rcases List.mem_cons.mp hg with rfl | hmem
              · have := hih ((cur ++ [chars.getD i ' ']) ++ f2)
                  (List.mem_cons_self _ _)
                rw [show (cur ++ [chars.getD i ' ']) ++ f2 =
                    cur ++ (chars.getD i ' ' :: f2) by simp] at this
                exact this
              · exact hih g (List.mem_cons_of_mem _ hmem)
      · -- non-terminator
        cases hF : futureFrags cc tbl chars fuel (i + 1)
            (cur ++ [chars.getD i ' ']) (quoteUpdate inQ qc (chars.getD i ' ')).1
            (quoteUpdate inQ qc (chars.getD i ' ')).2 with
        | nil => exact absurd hF (futureFrags_ne_nil _ _ _ _ _ _ _ _)
        | cons f2 rest2 =>
          rw [hF] at hg
          rw [show consHead (chars.getD i ' ') (f2 :: rest2) =
              (chars.getD i ' ' :: f2) :: rest2 from rfl] at hg
          rw [show headAppend cur ((chars.getD i ' ' :: f2) :: rest2) =
              (cur ++ (chars.getD i ' ' :: f2)) :: rest2 from rfl] at hg
          rw [hF] at hih
          rw [show headAppend (cur ++ [chars.getD i ' ']) (f2 :: rest2) =
              ((cur ++ [chars.getD i ' ']) ++ f2) :: rest2 from rfl] at hih
          rcases List.mem_cons.mp hg with rfl | hmem
          · have := hih ((cur ++ [chars.getD i ' ']) ++ f2)
              (List.mem_cons_self _ _)
            rw [show (cur ++ [chars.getD i ' ']) ++ f2 =
                cur ++ (chars.getD i ' ' :: f2) by simp] at this
            exact this
          · exact hih g (List.mem_cons_of_mem _ hmem)
    · rw [if_neg hlen] at hg
      rw [show headAppend cur [[]] = [cur ++ []] from rfl, List.append_nil] at hg
      rcases List.mem_singleton.mp hg with rfl
      refine ⟨noWsPair_front cc _ _ hpair, ?_⟩
      intro hne
      refine ⟨hhead hne, ?_⟩
      have hi : i = chars.length - 1 := by omega
      have h1i := hpos hne
      rw [hlastc hne, hi]
      exact Hlast (by omega)

theorem noWsPair_append (cc : CharClasses) :
    ∀ (u v : List Char), noWsPair cc u = true → noWsPair cc v = true →
      (u = [] ∨ v = [] ∨
        (cc.isWhitespace (u.getLastD ' ') && cc.isWhitespace (v.headD ' ')) = false) →
      noWsPair cc (u ++ v) = true := by
  intro u
  induction u with
  | nil => intro v _ hv _; exact hv
  | cons a u2 ih =>
    intro v hu hv hjunction
    cases u2 with
    | nil =>
      rw [List.singleton_append]
      apply noWsPair_cons_safe cc a v hv
      rcases hjunction with h | h | h
      · cases h
      · left; exact h
      · right
        rw [show ([a] : List Char).getLastD ' ' = a from rfl] at h
        exact h
    | cons b u3 =>
      rw [List.cons_append]
      have hu2 : noWsPair cc (b :: u3) = true := noWsPair_tail cc a _ hu
      have hrec : noWsPair cc ((b :: u3) ++ v) = true := by
        apply ih v hu2 hv
        rcases hjunction with h | h | h
        · cases h
        · right; left; exact h
        · right; right
          rw [getLastD_cons_ne a (b :: u3) ' ' (by simp)] at h
          exact h
      apply noWsPair_cons_safe cc a _ hrec
      right
      rw [show (((b :: u3) ++ v).headD ' ') = b from rfl]
      rw [show noWsPair cc (a :: b :: u3) =
        (!(cc.isWhitespace a && cc.isWhitespace b) && noWsPair cc (b :: u3))
        from rfl] at hu
      have := (Bool.and_eq_true_iff.mp hu).1
      rw [Bool.not_eq_true'] at this
      exact this

theorem joinFrags_ne_nil (G : List (List Char)) (hG : G ≠ [])
    (h : ∀ g ∈ G, g ≠ []) : joinFrags G ≠ [] := by
  cases G with
  | nil => exact absurd rfl hG
  | cons g rest =>
    cases rest with
    | nil => exact h g (List.mem_singleton.mpr rfl)
    | cons g2 rest2 =>
      rw [joinFrags_cons₂]
      intro hcon
      rw [List.append_eq_nil] at hcon
      cases hcon.2

theorem joinFrags_props (cc : CharClasses) :
    ∀ (G : List (List Char)),
      (∀ g ∈ G, g ≠ [] ∧ noWsPair cc g = true ∧
        cc.isWhitespace (g.headD ' ') = false ∧
        cc.isWhitespace (g.getLastD ' ') = false) →
      noWsPair cc (joinFrags G) = true ∧
      (G ≠ [] → cc.isWhitespace ((joinFrags G).headD ' ') = false ∧
        cc.isWhitespace ((joinFrags G).getLastD ' ') = false) := by
  intro G
  induction G with
  | nil => exact fun _ => ⟨rfl, fun hcon => absurd rfl hcon⟩
  | cons g rest ih =>
    intro h
    obtain ⟨hg1, hg2, hg3, hg4⟩ := h g (List.mem_cons_self g rest)
    have hrest := fun g2 hg2 => h g2 (List.mem_cons_of_mem g hg2)
    cases rest with
    | nil =>
      refine ⟨hg2, fun _ => ⟨hg3, hg4⟩⟩
    | cons g2 rest2 =>
      obtain ⟨ihp, ihe⟩ := ih hrest
      obtain ⟨ihh, ihl⟩ := ihe (by simp)
      have hjoin_ne : joinFrags (g2 :: rest2) ≠ [] :=
        joinFrags_ne_nil _ (by simp) (fun x hx => (hrest x hx).1)
      rw [joinFrags_cons₂]
      have htail : noWsPair cc (' ' :: joinFrags (g2 :: rest2)) = true := by
        apply noWsPair_cons_safe cc ' ' _ ihp
        right
        rw [ihh]
        simp
      constructor
      · apply noWsPair_append cc g (' ' :: joinFrags (g2 :: rest2)) hg2 htail
        right; right
        rw [hg4]
        simp
      · intro _
        constructor
        · rw [headD_append_ne _ _ _ hg1]
          exact hg3
        · rw [getLastD_append_ne _ _ _ (by simp)]
          rw [getLastD_cons_ne _ _ _ hjoin_ne]
          exact ihl

theorem replayRest_ne_nil (fs : List (List Char)) : replayRest fs ≠ [] := by
  unfold replayRest
  intro hcon
  rw [List.append_eq_nil] at hcon
  cases hcon.2

theorem replayRest_head_pre (f : List Char) (rest : List (List Char)) :
    ∃ w, replayRest (f :: rest) = f ++ w := by
  unfold replayRest
  cases rest with
  | nil =>
    by_cases hf : f = []
    · exact ⟨[' '], by
        rw [hf]
        rw [show dropEmptyLast [[]] = [] by
          unfold dropEmptyLast
          rw [if_pos (by rfl)]
          rfl]
        rfl⟩
    · exact ⟨[' '], by rw [dropEmptyLast_single_ne _ hf]; rfl⟩
  | cons g rest2 =>
    rw [dropEmptyLast_cons₂]
    cases hd : dropEmptyLast (g :: rest2) with
    | nil => exact ⟨[' '], rfl⟩
    | cons h2 r2 =>
      rw [joinFrags_cons₂]
      exact ⟨' ' :: joinFrags (h2 :: r2) ++ [' '], by simp⟩

theorem getLastD_mem (l : List Char) (d : Char) (h : l ≠ []) :
    l.getLastD d ∈ l := by
  induction l with
  | nil => exact absurd rfl h
  | cons a l2 ih =>
    cases l2 with
    | nil => exact List.mem_singleton.mpr rfl
    | cons b l3 =>
      rw [getLastD_cons_ne _ _ _ (by simp)]
      exact List.mem_cons_of_mem a (ih (by simp))

theorem takeWhile_eq_self_of_length (p : Char → Bool) (l : List Char)
    (h : (l.takeWhile p).length = l.length) : l.takeWhile p = l :=
  (List.takeWhile_prefix p).eq_of_length h

theorem replayRest_frag_nil : replayRest [[]] = [' '] := by
  unfold replayRest
  rw [show dropEmptyLast [[]] = [] by
    unfold dropEmptyLast
    rw [if_pos (by rfl)]
    rfl]
  rfl

theorem splitLoop_stuck (cc : CharClasses) (tbl : List (String × PrefixType))
    (chars : List Char) (fuel j : Nat) (cur : List Char)
    (sents : List (List Char)) (inQ : Bool) (qc : Char)
    (h : ¬ j + 1 < chars.length) :
    splitLoop cc tbl chars fuel j cur sents inQ qc =
      if cur.isEmpty then sents else sents ++ [trimChars cc cur] := by
  cases fuel with
  | zero => rw [splitLoop]
  | succ k => rw [splitLoop, if_neg h]

theorem prev_shift (chars1 chars2 : List Char) (i j : Nat)
    (hgj : chars2.getD j ' ' = chars1.getD i ' ') :
    ((0 < i + 1 ∧ chars1.getD (i + 1 - 1) ' ' = ')') ↔
      (0 < j + 1 ∧ chars2.getD (j + 1 - 1) ' ' = ')')) := by
  rw [Nat.add_sub_cancel, Nat.add_sub_cancel, hgj]
  constructor
  · rintro ⟨-, h2⟩
    exact ⟨Nat.succ_pos j, h2⟩
  · rintro ⟨-, h2⟩
    exact ⟨Nat.succ_pos i, h2⟩

theorem drop_cons_len (chars2 : List Char) (j : Nat) (c : Char) (X : List Char)
    (h : chars2.drop j = c :: X) (hX : X ≠ []) : j + 1 < chars2.length := by
  have hlen := congrArg List.length h
  rw [List.length_drop] at hlen
  simp only [List.length_cons] at hlen
  have := List.length_pos.mpr hX
  omega

theorem bisim (cc : CharClasses) (tbl : List (String × PrefixType))
    (chars1 chars2 : List Char)
    (Hsp : cc.isWhitespace ' ' = true)
    (Hpar : cc.isWhitespace ')' = false)
    (Ht1 : cc.isWhitespace '.' = false) (Ht2 : cc.isWhitespace '?' = false)
    (Ht3 : cc.isWhitespace '!' = false)
    (Hsent : chars1.getD (chars1.length - 1) ' ' = ' ') :
    ∀ (fuel1 i j : Nat) (cur : List Char) (inQ : Bool) (qc : Char) (fuel2 : Nat),
      chars1.length ≤ i + fuel1 + 1 →
      chars2.length ≤ j + fuel2 + 1 →
      i ≤ chars1.length - 1 →
      chars2.drop j = replayRest (futureFrags cc tbl chars1 fuel1 i cur inQ qc) →
      ((0 < i ∧ chars1.getD (i - 1) ' ' = ')') ↔
        (0 < j ∧ chars2.getD (j - 1) ' ' = ')')) →
      splitLoop cc tbl chars2 fuel2 j cur [] inQ qc =
        splitLoop cc tbl chars1 fuel1 i cur [] inQ qc := by
  intro fuel1
  induction fuel1 with
  | zero =>
    intro i j cur inQ qc fuel2 hf1 hf2 hbound halign hprev
    rw [futureFrags, replayRest_frag_nil] at halign
    have hj1 : ¬ j + 1 < chars2.length := by
      have hlen := congrArg List.length halign
      rw [List.length_drop] at hlen
      simp at hlen
      omega
    rw [splitLoop_stuck cc tbl chars2 fuel2 j cur [] inQ qc hj1,
      splitLoop]
  | succ fuel1 ih =>
    intro i j cur inQ qc fuel2 hf1 hf2 hbound halign hprev
    by_cases hlen1 : i + 1 < chars1.length
    · rw [futureFrags, if_pos hlen1] at halign
      dsimp only at halign
      by_cases hterm : (chars1.getD i ' ' == '.' || chars1.getD i ' ' == '?' ||
          chars1.getD i ' ' == '!') = true
      · rw [if_pos hterm] at halign
        by_cases hacro : acronymMatch cc (cur ++ [chars1.getD i ' ']) = true
        · -- acronym branch: both scans simply advance
          rw [if_pos hacro] at halign
          rw [replayRest_consHead _ _ (futureFrags_ne_nil _ _ _ _ _ _ _ _)] at halign
          obtain ⟨hgj, hdrop2, hjlt⟩ := drop_head_getD _ _ _ _ halign
          have hj1 : j + 1 < chars2.length :=
            drop_cons_len chars2 j _ _ halign (replayRest_ne_nil _)
          obtain ⟨k2, rfl⟩ : ∃ k2, fuel2 = k2 + 1 := by
            cases fuel2 with
            | zero => omega
            | succ k2 => exact ⟨k2, rfl⟩
          rw [splitLoop, if_pos hj1, splitLoop, if_pos hlen1]
          dsimp only
          rw [hgj, if_pos hterm, if_pos hterm, if_pos hacro, if_pos hacro]
          exact ih (i + 1) (j + 1) _ _ _ k2 (by omega) (by omega) (by omega)
            hdrop2 (prev_shift chars1 chars2 i j hgj)
        · rw [if_neg hacro] at halign
          by_cases hb : boundaryAt cc tbl chars1 i (cur ++ [chars1.getD i ' '])
              (quoteUpdate inQ qc (chars1.getD i ' ')).1
              (nextNonWsIdx cc chars1 (i + 1)) = true
          · -- split branch
            rw [if_pos hb] at halign
            have hnci1lt : nextNonWsIdx cc chars1 (i + 1) < chars1.length :=
              boundaryAt_true_lt _ _ _ _ _ _ _ hb
            have hcw : cc.isWhitespace
                (chars1.getD (nextNonWsIdx cc chars1 (i + 1)) ' ') = false :=
              nextNonWsIdx_not_ws cc chars1 (i + 1) hnci1lt
            have hnci1lt2 : nextNonWsIdx cc chars1 (i + 1) + 1 < chars1.length := by
              by_contra hcon
              have he : nextNonWsIdx cc chars1 (i + 1) = chars1.length - 1 := by
                omega
              rw [he, Hsent] at hcw
              rw [Hsp] at hcw
              cases hcw
            have hge : i + 1 ≤ nextNonWsIdx cc chars1 (i + 1) :=
              nextNonWsIdx_ge cc chars1 (i + 1)
            obtain ⟨k1, rfl⟩ : ∃ k1, fuel1 = k1 + 1 := by
              cases fuel1 with
              | zero => omega
              | succ k1 => exact ⟨k1, rfl⟩
            obtain ⟨f2, rest2, hF⟩ := futureFrags_head_cons cc tbl chars1 k1
              (nextNonWsIdx cc chars1 (i + 1)) []
              (quoteUpdate inQ qc (chars1.getD i ' ')).1
              (quoteUpdate inQ qc (chars1.getD i ' ')).2 hnci1lt2
            rw [hF, replayRest_split] at halign
            obtain ⟨hgj, hdropj1, hjlt⟩ := drop_head_getD _ _ _ _ halign
            obtain ⟨hgj1, hdropj2, hj1lt⟩ := drop_head_getD _ _ _ _ hdropj1
            have hj2lt : j + 1 + 1 < chars2.length :=
              drop_cons_len chars2 (j + 1) ' ' _ hdropj1 (replayRest_ne_nil _)
            obtain ⟨k2, rfl⟩ : ∃ k2, fuel2 = k2 + 1 := by
              cases fuel2 with
              | zero => omega
              | succ k2 => exact ⟨k2, rfl⟩
            have hrr : replayRest ((chars1.getD (nextNonWsIdx cc chars1 (i + 1)) ' '
                :: f2) :: rest2) =
                chars1.getD (nextNonWsIdx cc chars1 (i + 1)) ' ' ::
                  replayRest (f2 :: rest2) :=
              replayRest_consHead _ (f2 :: rest2) (by simp)
            have hnci2 : nextNonWsIdx cc chars2 (j + 1) = j + 2 := by
              unfold nextNonWsIdx
              rw [hdropj1, hrr]
              rw [List.takeWhile_cons, if_pos Hsp, List.takeWhile_cons,
                if_neg (by rw [hcw]; simp)]
              rfl
            have hgj2 : chars2.getD (j + 2) ' ' =
                chars1.getD (nextNonWsIdx cc chars1 (i + 1)) ' ' := by
              rw [hrr] at hdropj2
              have : j + 1 + 1 = j + 2 := by omega
              rw [this] at hdropj2
              exact (drop_head_getD _ _ _ _ hdropj2).1
            have hcongr : boundaryAt cc tbl chars1 i (cur ++ [chars1.getD i ' '])
                (quoteUpdate inQ qc (chars1.getD i ' ')).1
                (nextNonWsIdx cc chars1 (i + 1)) =
                boundaryAt cc tbl chars2 j (cur ++ [chars1.getD i ' '])
                  (quoteUpdate inQ qc (chars1.getD i ' ')).1
                  (nextNonWsIdx cc chars2 (j + 1)) := by
              apply boundaryAt_congr
              · rw [eq_iff_iff]
                apply iff_of_true hnci1lt
                rw [hnci2]
                omega
              · intro _
                rw [hnci2, hgj2]
              · exact hprev
            rw [splitLoop, if_pos hj1lt, splitLoop, if_pos hlen1]
            dsimp only
            rw [hgj, if_pos hterm, if_pos hterm, if_neg hacro, if_neg hacro,
              ← hcongr, if_pos hb, if_pos hb]
            rw [hnci2]
            rw [splitLoop_acc cc tbl chars2, splitLoop_acc cc tbl chars1]
            refine congrArg _ ?_
            apply ih (nextNonWsIdx cc chars1 (i + 1)) (j + 2) [] _ _ k2
              (by omega) (by omega) (by omega)
            · rw [hF]
              have : j + 1 + 1 = j + 2 := by omega
              rw [← this]
              exact hdropj2
            · constructor
              · rintro ⟨hpos, hpr⟩
                exfalso
                rcases Nat.lt_or_ge (i + 1) (nextNonWsIdx cc chars1 (i + 1)) with
                  hgt | hle
                · have hws := nextNonWsIdx_ws cc chars1 (i + 1)
                    (nextNonWsIdx cc chars1 (i + 1) - 1) (by omega) (by omega)
                  rw [hpr, Hpar] at hws
                  cases hws
                · have heq : nextNonWsIdx cc chars1 (i + 1) = i + 1 := by omega
                  rw [heq, Nat.add_sub_cancel] at hpr
                  rcases Bool.or_eq_true_iff.mp hterm with h3 | h3
                  · rcases Bool.or_eq_true_iff.mp h3 with h4 | h4
                    · rw [beq_iff_eq.mp h4] at hpr
                      exact absurd hpr (by decide)
                    · rw [beq_iff_eq.mp h4] at hpr
                      exact absurd hpr (by decide)
                  · rw [beq_iff_eq.mp h3] at hpr
                    exact absurd hpr (by decide)
              · rintro ⟨-, hpr⟩
                exfalso
                have he2 : j + 2 - 1 = j + 1 := by omega
                rw [he2, hgj1] at hpr
                exact absurd hpr (by decide)
          · -- no-split terminator branch
            rw [if_neg hb] at halign
            rw [replayRest_consHead _ _ (futureFrags_ne_nil _ _ _ _ _ _ _ _)] at halign
            obtain ⟨hgj, hdrop2, hjlt⟩ := drop_head_getD _ _ _ _ halign
            have hj1 : j + 1 < chars2.length :=
              drop_cons_len chars2 j _ _ halign (replayRest_ne_nil _)
            obtain ⟨k2, rfl⟩ : ∃ k2, fuel2 = k2 + 1 := by
              cases fuel2 with
              | zero => omega
              | succ k2 => exact ⟨k2, rfl⟩
            have hcongr : boundaryAt cc tbl chars1 i (cur ++ [chars1.getD i ' '])
                (quoteUpdate inQ qc (chars1.getD i ' ')).1
                (nextNonWsIdx cc chars1 (i + 1)) =
                boundaryAt cc tbl chars2 j (cur ++ [chars1.getD i ' '])
                  (quoteUpdate inQ qc (chars1.getD i ' ')).1
                  (nextNonWsIdx cc chars2 (j + 1)) := by
              cases hF : futureFrags cc tbl chars1 fuel1 (i + 1)
                  (cur ++ [chars1.getD i ' '])
                  (quoteUpdate inQ qc (chars1.getD i ' ')).1
                  (quoteUpdate inQ qc (chars1.getD i ' ')).2 with
              | nil => exact absurd hF (futureFrags_ne_nil _ _ _ _ _ _ _ _)
              | cons f2 rest2 =>
                rw [hF] at hdrop2
                obtain ⟨v, hv⟩ := futureFrags_head_prefix cc tbl chars1 fuel1 (i + 1)
                  _ _ _ f2 rest2 hF
                have hlen1d : f2.length + v.length = chars1.length - (i + 1) := by
                  have := congrArg List.length hv
                  rw [List.length_append, List.length_drop] at this
                  exact this
                by_cases hmix : (f2.takeWhile cc.isWhitespace).length < f2.length
                · -- some non-whitespace character remains inside the fragment
                  obtain ⟨w, hw⟩ := replayRest_head_pre f2 rest2
                  rw [hw] at hdrop2
                  have hlen2d : f2.length + w.length = chars2.length - (j + 1) := by
                    have := congrArg List.length hdrop2
                    rw [List.length_append, List.length_drop] at this
                    omega
                  have hnci1 : nextNonWsIdx cc chars1 (i + 1) =
                      i + 1 + (f2.takeWhile cc.isWhitespace).length := by
                    unfold nextNonWsIdx
                    rw [← hv, takeWhile_append_stop _ _ _ hmix]
                  have hnci2 : nextNonWsIdx cc chars2 (j + 1) =
                      j + 1 + (f2.takeWhile cc.isWhitespace).length := by
                    unfold nextNonWsIdx
                    rw [hdrop2, takeWhile_append_stop _ _ _ hmix]
                  have hlt1 : nextNonWsIdx cc chars1 (i + 1) < chars1.length := by
                    rw [hnci1]; omega
                  have hlt2 : nextNonWsIdx cc chars2 (j + 1) < chars2.length := by
                    rw [hnci2]; omega
                  apply boundaryAt_congr
                  · rw [eq_iff_iff]
                    exact iff_of_true hlt1 hlt2
                  · intro _
                    rw [hnci1, hnci2]
                    have e1 : chars1.getD (i + 1 + (f2.takeWhile cc.isWhitespace).length) ' ' =
                        f2.getD (f2.takeWhile cc.isWhitespace).length ' ' := by
                      rw [← getD_drop, ← hv,
                        getD_append_left _ _ _ _ hmix]
                    have e2 : chars2.getD (j + 1 + (f2.takeWhile cc.isWhitespace).length) ' ' =
                        f2.getD (f2.takeWhile cc.isWhitespace).length ' ' := by
                      rw [← getD_drop, hdrop2,
                        getD_append_left _ _ _ _ hmix]
                    rw [e1, e2]
                  · exact hprev
                · -- the fragment remainder is all whitespace
                  have hm : (f2.takeWhile cc.isWhitespace).length = f2.length := by
                    have := length_takeWhile_le_self cc.isWhitespace f2
                    omega
                  have hallws : ∀ x ∈ f2, cc.isWhitespace x = true := by
                    intro x hx
                    have hself := takeWhile_eq_self_of_length cc.isWhitespace f2 hm
                    rw [← hself] at hx
                    exact List.mem_takeWhile_imp hx
                  have hrest2 : rest2 = [] := by
                    cases rest2 with
                    | nil => rfl
                    | cons g r2 =>
                      obtain ⟨hne, hlast⟩ := futureFrags_multi_term cc tbl chars1
                        fuel1 (i + 1) _ _ _ f2 g r2 hF
                      have hmem := getLastD_mem f2 ' ' hne
                      have hws := hallws _ hmem
                      rcases hlast with h3 | h3 | h3 <;> rw [h3] at hws
                      · rw [Ht1] at hws; cases hws
                      · rw [Ht2] at hws; cases hws
                      · rw [Ht3] at hws; cases hws
                  subst hrest2
                  have hcover : (i + 1) + f2.length = chars1.length - 1 :=
                    futureFrags_single_covers cc tbl chars1 fuel1 (i + 1) _ _ _ f2
                      (by omega) (by omega) hF
                  have hvlen : v.length = 1 := by omega
                  obtain ⟨x, rfl⟩ : ∃ x, v = [x] := by
                    cases v with
                    | nil => simp at hvlen
                    | cons x v2 =>
                      cases v2 with
                      | nil => exact ⟨x, rfl⟩
                      | cons y v3 => simp at hvlen
                  have hx : x = ' ' := by
                    have e1 : chars1.getD (i + 1 + f2.length) ' ' = x := by
                      rw [← getD_drop, ← hv, getD_concat_self]
                    rw [hcover] at e1
                    rw [Hsent] at e1
                    exact e1.symm
                  subst hx
                  have hnci1 : nextNonWsIdx cc chars1 (i + 1) = chars1.length := by
                    unfold nextNonWsIdx
                    rw [← hv, takeWhile_all_append _ _ _ hallws]
                    rw [show List.takeWhile cc.isWhitespace [' '] = [' '] by
                      rw [List.takeWhile_cons, if_pos Hsp]; rfl]
                    rw [List.length_append]
                    simp only [List.length_singleton]
                    omega
                  have hdrop2e : chars2.drop (j + 1) = f2 ++ [' '] := by
                    rw [hdrop2]
                    congr 1
                    unfold replayRest
                    cases hf2e : f2 with
                    | nil =>
                      rw [show dropEmptyLast [[]] = [] by
                        unfold dropEmptyLast
                        rw [if_pos (by rfl)]
                        rfl]
                      rfl
                    | cons a as =>
                      rw [dropEmptyLast_single_ne _ (by simp)]
                      rfl
                  have hnci2 : nextNonWsIdx cc chars2 (j + 1) = chars2.length := by
                    unfold nextNonWsIdx
                    rw [hdrop2e, takeWhile_all_append _ _ _ hallws]
                    rw [show List.takeWhile cc.isWhitespace [' '] = [' '] by
                      rw [List.takeWhile_cons, if_pos Hsp]; rfl]
                    have := congrArg List.length hdrop2e
                    rw [List.length_drop, List.length_append] at this
                    rw [List.length_append]
                    simp only [List.length_singleton] at this ⊢
                    omega
                  apply boundaryAt_congr
                  · rw [eq_iff_iff]
                    apply iff_of_false
                    · rw [hnci1]; omega
                    · rw [hnci2]; omega
                  · intro hcon
                    rw [hnci1] at hcon
                    omega
                  · exact hprev
            rw [splitLoop, if_pos hj1, splitLoop, if_pos hlen1]
            dsimp only
            rw [hgj, if_pos hterm, if_pos hterm, if_neg hacro, if_neg hacro,
              ← hcongr, if_neg hb, if_neg hb]
            exact ih (i + 1) (j + 1) _ _ _ k2 (by omega) (by omega) (by omega)
              hdrop2 (prev_shift chars1 chars2 i j hgj)
      · -- non-terminator branch
        rw [if_neg hterm] at halign
        rw [replayRest_consHead _ _ (futureFrags_ne_nil _ _ _ _ _ _ _ _)] at halign
        obtain ⟨hgj, hdrop2, hjlt⟩ := drop_head_getD _ _ _ _ halign
        have hj1 : j + 1 < chars2.length :=
          drop_cons_len chars2 j _ _ halign (replayRest_ne_nil _)
        obtain ⟨k2, rfl⟩ : ∃ k2, fuel2 = k2 + 1 := by
          cases fuel2 with
          | zero => omega
          | succ k2 => exact ⟨k2, rfl⟩
        rw [splitLoop, if_pos hj1, splitLoop, if_pos hlen1]
        dsimp only
        rw [hgj, if_neg hterm, if_neg hterm]
        exact ih (i + 1) (j + 1) _ _ _ k2 (by omega) (by omega) (by omega)
          hdrop2 (prev_shift chars1 chars2 i j hgj)
    · rw [futureFrags, if_neg hlen1, replayRest_frag_nil] at halign
      have hj1 : ¬ j + 1 < chars2.length := by
        have hlen := congrArg List.length halign
        rw [List.length_drop] at hlen
        simp at hlen
        omega
      rw [splitLoop_stuck cc tbl chars2 fuel2 j cur [] inQ qc hj1,
        splitLoop, if_neg hlen1]
theorem consHead_dropLast_ne (c : Char) (F : List (List Char)) (hF : F ≠ [])
    (h : ∀ g ∈ F.dropLast, g ≠ []) :
    ∀ g ∈ (consHead c F).dropLast, g ≠ [] := by
  cases F with
  | nil => exact absurd rfl hF
  | cons f rest =>
    cases rest with
    | nil =>
      intro g hg
      rw [show consHead c [f] = [c :: f] from rfl] at hg
      simp at hg
    | cons r rs =>
      intro g hg
      rw [show consHead c (f :: r :: rs) = (c :: f) :: r :: rs from rfl] at hg
      rw [List.dropLast_cons₂] at hg
      rcases List.mem_cons.mp hg with rfl | hg2
      · simp
      · exact h g (by rw [List.dropLast_cons₂]; exact List.mem_cons_of_mem f hg2)

theorem futureFrags_dropLast_ne (cc : CharClasses) (tbl : List (String × PrefixType))
    (chars : List Char) :
    ∀ (fuel i : Nat) (cur : List Char) (inQ : Bool) (qc : Char),
      ∀ g ∈ (futureFrags cc tbl chars fuel i cur inQ qc).dropLast, g ≠ [] := by
  intro fuel
  induction fuel with
  | zero =>
    intro i cur inQ qc g hg
    rw [futureFrags] at hg
    simp at hg
  | succ fuel ih =>
    intro i cur inQ qc g hg
    rw [futureFrags] at hg
    by_cases hlen : i + 1 < chars.length
    · rw [if_pos hlen] at hg
      dsimp only at hg
      split at hg
      · split at hg
        · exact consHead_dropLast_ne _ _ (futureFrags_ne_nil _ _ _ _ _ _ _ _)
            (ih _ _ _ _) g hg
        · split at hg
          · -- split branch: [c] :: F''
            cases hF : futureFrags cc tbl chars fuel
                (nextNonWsIdx cc chars (i + 1)) []
                (quoteUpdate inQ qc (chars.getD i ' ')).1
                (quoteUpdate inQ qc (chars.getD i ' ')).2 with
            | nil => exact absurd hF (futureFrags_ne_nil _ _ _ _ _ _ _ _)
            | cons f2 rest2 =>
              rw [hF, List.dropLast_cons₂] at hg
              rcases List.mem_cons.mp hg with rfl | hg2
              · simp
              · have := ih (nextNonWsIdx cc chars (i + 1)) []
                  (quoteUpdate inQ qc (chars.getD i ' ')).1
                  (quoteUpdate inQ qc (chars.getD i ' ')).2 g
                rw [hF] at this
                exact this hg2
          · exact consHead_dropLast_ne _ _ (futureFrags_ne_nil _ _ _ _ _ _ _ _)
              (ih _ _ _ _) g hg
      · exact consHead_dropLast_ne _ _ (futureFrags_ne_nil _ _ _ _ _ _ _ _)
          (ih _ _ _ _) g hg
    · rw [if_neg hlen] at hg
      simp at hg

theorem dropEmptyLast_subset (fs : List (List Char)) :
    ∀ g ∈ dropEmptyLast fs, g ∈ fs := by
  intro g hg
  unfold dropEmptyLast at hg
  by_cases hl : fs.getLast? = some []
  · rw [if_pos hl] at hg
    exact List.dropLast_subset fs hg
  · rw [if_neg hl] at hg
    exact hg

theorem dropEmptyLast_ne (fs : List (List Char)) (hne : fs ≠ [])
    (h : ∀ g ∈ fs.dropLast, g ≠ []) :
    ∀ g ∈ dropEmptyLast fs, g ≠ [] := by
  intro g hg
  unfold dropEmptyLast at hg
  by_cases hl : fs.getLast? = some []
  · rw [if_pos hl] at hg
    exact h g hg
  · rw [if_neg hl] at hg
    have hsplit := List.dropLast_append_getLast hne
    rw [← hsplit] at hg
    rcases List.mem_append.mp hg with hg2 | hg2
    · exact h g hg2
    · rcases List.mem_singleton.mp hg2 with rfl
      intro hcon
      apply hl
      rw [List.getLast?_eq_getLast fs hne, hcon]

theorem headAppend_nil (fs : List (List Char)) (h : fs ≠ []) :
    headAppend [] fs = fs := by
  cases fs with
  | nil => exact absurd rfl h
  | cons f rest =>
    rw [show headAppend [] (f :: rest) = ([] ++ f) :: rest from rfl, List.nil_append]

theorem getD_last_eq_getLastD (l : List Char) (h : l ≠ []) (d : Char) :
    l.getD (l.length - 1) d = l.getLastD d := by
  induction l with
  | nil => exact absurd rfl h
  | cons a l2 ih =>
    cases l2 with
    | nil => rfl
    | cons b l3 =>
      rw [getLastD_cons_ne _ _ _ (by simp)]
      have h1 : (a :: b :: l3).length - 1 = (b :: l3).length - 1 + 1 := by simp
      rw [h1, List.getD_cons_succ]
      exact ih (by simp)

theorem intercalate_go_mk :
    ∀ (rest : List (List Char)) (acc : List Char),
      String.intercalate.go (String.mk acc) (String.mk [' ']) (rest.map String.mk) =
        String.mk (joinFrags (acc :: rest)) := by
  intro rest
  induction rest with
  | nil => intro acc; rfl
  | cons g gs ih =>
    intro acc
    rw [List.map_cons]
    rw [show String.intercalate.go (String.mk acc) (String.mk [' '])
        (String.mk g :: gs.map String.mk) =
        String.intercalate.go (String.mk acc ++ String.mk [' '] ++ String.mk g)
          (String.mk [' ']) (gs.map String.mk) from rfl]
    rw [show String.mk acc ++ String.mk [' '] ++ String.mk g =
        String.mk ((acc ++ [' ']) ++ g) from rfl]
    rw [show (acc ++ [' ']) ++ g = acc ++ ' ' :: g by simp]
    rw [ih (acc ++ ' ' :: g)]
    cases gs with
    | nil => rfl
    | cons g2 gs2 =>
      rw [joinFrags_cons₂, joinFrags_cons₂, joinFrags_cons₂]
      simp

theorem intercalate_mk (G : List (List Char)) :
    String.intercalate (String.mk [' ']) (G.map String.mk) =
      String.mk (joinFrags G) := by
  cases G with
  | nil => rfl
  | cons g gs =>
    rw [List.map_cons]
    rw [show String.intercalate (String.mk [' ']) (String.mk g :: gs.map String.mk) =
        String.intercalate.go (String.mk g) (String.mk [' '])
          (gs.map String.mk) from rfl]
    exact intercalate_go_mk gs g

theorem mk_isEmpty_false (g : List Char) (h : g ≠ []) :
    (String.mk g).isEmpty = false := by
  rw [Bool.eq_false_iff]
  intro hcon
  rw [String.isEmpty_iff, String.ext_iff] at hcon
  exact h hcon

theorem normalize_props (cc : CharClasses) (l : List Char) :
    noWsPair cc (normalizeChars cc l) = true ∧
    (normalizeChars cc l ≠ [] →
      cc.isWhitespace ((normalizeChars cc l).headD ' ') = false) ∧
    (normalizeChars cc l ≠ [] →
      cc.isWhitespace ((normalizeChars cc l).getLastD ' ') = false) := by
  unfold normalizeChars collapseWs
  refine ⟨noWsPair_trim cc _ ((collapse_noWsPair cc l).1), ?_, ?_⟩
  · intro hne
    cases hcase : trimChars cc (collapseAux cc false l) with
    | nil => exact absurd hcase hne
    | cons x xs => exact trim_head_not_ws cc _ x xs hcase
  · intro hne
    exact trim_last_not_ws cc _ hne

theorem frags_props (cc : CharClasses) (tbl : List (String × PrefixType))
    (Ht1 : cc.isWhitespace '.' = false) (Ht2 : cc.isWhitespace '?' = false)
    (Ht3 : cc.isWhitespace '!' = false) (t : List Char)
    (hh : t ≠ [] → cc.isWhitespace (t.headD ' ') = false)
    (hl : t ≠ [] → cc.isWhitespace (t.getLastD ' ') = false)
    (hp : noWsPair cc t = true) :
    ∀ g ∈ dropEmptyLast (futureFrags cc tbl (t ++ [' '])
        (t ++ [' ']).length 0 [] false ' '),
      g ≠ [] ∧ noWsPair cc g = true ∧
        cc.isWhitespace (g.headD ' ') = false ∧
        cc.isWhitespace (g.getLastD ' ') = false := by
  intro g hg
  have hne : g ≠ [] := dropEmptyLast_ne _ (futureFrags_ne_nil _ _ _ _ _ _ _ _)
    (futureFrags_dropLast_ne cc tbl _ _ _ _ _ _) g hg
  have hgF : g ∈ futureFrags cc tbl (t ++ [' '])
      (t ++ [' ']).length 0 [] false ' ' := dropEmptyLast_subset _ g hg
  have hHlast : 2 ≤ (t ++ [' ']).length →
      cc.isWhitespace ((t ++ [' ']).getD ((t ++ [' ']).length - 2) ' ') = false := by
    intro h2
    have htne : t ≠ [] := by
      intro hc
      rw [hc] at h2
      simp at h2
    have hlen : (t ++ [' ']).length = t.length + 1 := by simp
    have hidx : (t ++ [' ']).length - 2 = t.length - 1 := by omega
    rw [hidx, getD_append_left t [' '] _ ' '
      (Nat.sub_lt (List.length_pos.mpr htne) Nat.one_pos)]
    rw [getD_last_eq_getLastD t htne ' ']
    exact hl htne
  have hstart : ([] : List Char) = [] → 0 + 1 < (t ++ [' ']).length →
      cc.isWhitespace ((t ++ [' ']).getD 0 ' ') = false := by
    intro _ hlt
    have htne : t ≠ [] := by
      intro hc
      rw [hc] at hlt
      simp at hlt
    rw [getD_append_left t [' '] 0 ' ' (List.length_pos.mpr htne)]
    cases t with
    | nil => exact absurd rfl htne
    | cons x xs => exact hh htne
  have hpair : noWsPair cc (([] : List Char) ++ (t ++ [' ']).drop 0) = true := by
    rw [List.nil_append, List.drop_zero]
    apply noWsPair_append cc t [' '] hp rfl
    by_cases htne : t = []
    · exact Or.inl htne
    · right; right
      rw [hl htne]
      simp
  have hshape := futureFrags_shape cc tbl (t ++ [' ']) Ht1 Ht2 Ht3 hHlast
    ((t ++ [' ']).length) 0 [] false ' '
    (by omega) (by omega)
    (fun hc => absurd rfl hc) (fun hc => absurd rfl hc) (fun hc => absurd rfl hc)
    hstart hpair g
    (by
      rw [headAppend_nil _ (futureFrags_ne_nil _ _ _ _ _ _ _ _)]
      exact hgF)
  exact ⟨hne, hshape.1, (hshape.2 hne).1, (hshape.2 hne).2⟩

theorem resplit_G (cc : CharClasses) (tbl : List (String × PrefixType))
    (Hsp : cc.isWhitespace ' ' = true) (Hpar : cc.isWhitespace ')' = false)
    (Ht1 : cc.isWhitespace '.' = false) (Ht2 : cc.isWhitespace '?' = false)
    (Ht3 : cc.isWhitespace '!' = false) (t : List Char) (G : List (List Char))
    (hGdef : dropEmptyLast (futureFrags cc tbl (t ++ [' '])
      (t ++ [' ']).length 0 [] false ' ') = G)
    (hmem : ∀ g ∈ G, g ≠ [] ∧ noWsPair cc g = true ∧
      cc.isWhitespace (g.headD ' ') = false ∧
      cc.isWhitespace (g.getLastD ' ') = false)
    (hGnil : G ≠ []) :
    split cc tbl (String.mk (joinFrags G)) = G.map (fun s => String.mk s) := by
  obtain ⟨hjP, hjE⟩ := joinFrags_props cc G hmem
  obtain ⟨hjh, hjl⟩ := hjE hGnil
  have hjne : joinFrags G ≠ [] := joinFrags_ne_nil G hGnil (fun g hg => (hmem g hg).1)
  have hune : String.mk (joinFrags G) ≠ "" := by
    intro hcon
    rw [String.ext_iff] at hcon
    exact hjne hcon
  have hnormfix : normalizeChars cc (joinFrags G) = joinFrags G := by
    unfold normalizeChars collapseWs
    rw [collapse_fixed cc _ hjP]
    exact trim_fixed_ends cc _ (Or.inr ⟨hjh, hjl⟩)
  have hsent : (t ++ [' ']).getD ((t ++ [' ']).length - 1) ' ' = ' ' := by
    have h1 : (t ++ [' ']).length - 1 = t.length := by simp
    rw [h1, getD_concat_self]
  have halign : (joinFrags G ++ [' ']).drop 0 =
      replayRest (futureFrags cc tbl (t ++ [' '])
        (t ++ [' ']).length 0 [] false ' ') := by
    rw [List.drop_zero]
    show _ = joinFrags (dropEmptyLast (futureFrags cc tbl (t ++ [' '])
      (t ++ [' ']).length 0 [] false ' ')) ++ [' ']
    rw [hGdef]
  have hbis := bisim cc tbl (t ++ [' ']) (joinFrags G ++ [' ']) Hsp Hpar Ht1 Ht2 Ht3
    hsent ((t ++ [' ']).length) 0 0 [] false ' ' ((joinFrags G ++ [' ']).length)
    (by omega) (by omega) (by omega) halign
    (iff_of_false (fun hc => absurd hc.1 (by omega))
      (fun hc => absurd hc.1 (by omega)))
  have hraw : splitLoop cc tbl (t ++ [' ']) (t ++ [' ']).length 0 [] [] false ' ' =
      G.map (trimChars cc) := by
    rw [splitLoop_eq_emit, headAppend_nil _ (futureFrags_ne_nil _ _ _ _ _ _ _ _),
      emitList_eq_map_trim, hGdef]
  have htrim : G.map (trimChars cc) = G := by
    have h2 : ∀ g ∈ G, trimChars cc g = id g := by
      intro g hg
      exact trim_fixed_ends cc g (Or.inr ⟨(hmem g hg).2.2.1, (hmem g hg).2.2.2⟩)
    rw [List.map_congr_left h2, List.map_id]
  have hfilter : ((G.map (fun s => String.mk s)).filter (fun s => !s.isEmpty)) =
      G.map (fun s => String.mk s) := by
    apply List.filter_eq_self.mpr
    intro s hs
    obtain ⟨g, hg, rfl⟩ := List.mem_map.mp hs
    rw [mk_isEmpty_false g (hmem g hg).1]
    rfl
  simp only [split]
  rw [if_neg hune]
  rw [hnormfix, hbis, hraw, htrim, hfilter]

/-- C7: for every input text and every splitter (any character classifier in
which the space is whitespace and `')'`, `'.'`, `'?'`, `'!'` are not, and any
non-breaking-prefix table), joining the sentences returned by `split` with a
single space and splitting the result again yields the same sequence of
sentences: re-splitting is idempotent. -/
theorem split_idempotent (cc : CharClasses) (tbl : List (String × PrefixType))
    (Hsp : cc.isWhitespace ' ' = true) (Hpar : cc.isWhitespace ')' = false)
    (Ht1 : cc.isWhitespace '.' = false) (Ht2 : cc.isWhitespace '?' = false)
    (Ht3 : cc.isWhitespace '!' = false) (text : String) :
    split cc tbl (String.intercalate " " (split cc tbl text)) =
      split cc tbl text := by
  by_cases htext : text = ""
  · rw [htext]
    rfl
  · obtain ⟨hp, hh, hl⟩ := normalize_props cc text.data
    have hG := frags_props cc tbl Ht1 Ht2 Ht3 (normalizeChars cc text.data) hh hl hp
    have hraw : splitLoop cc tbl (normalizeChars cc text.data ++ [' '])
        (normalizeChars cc text.data ++ [' ']).length 0 [] [] false ' ' =
        (dropEmptyLast (futureFrags cc tbl (normalizeChars cc text.data ++ [' '])
          (normalizeChars cc text.data ++ [' ']).length 0 [] false ' ')).map
          (trimChars cc) := by
      rw [splitLoop_eq_emit, headAppend_nil _ (futureFrags_ne_nil _ _ _ _ _ _ _ _),
        emitList_eq_map_trim]
    have htrim : (dropEmptyLast (futureFrags cc tbl
          (normalizeChars cc text.data ++ [' '])
          (normalizeChars cc text.data ++ [' ']).length 0 [] false ' ')).map
          (trimChars cc) =
        dropEmptyLast (futureFrags cc tbl (normalizeChars cc text.data ++ [' '])
          (normalizeChars cc text.data ++ [' ']).length 0 [] false ' ') := by
      have h2 : ∀ g ∈ dropEmptyLast (futureFrags cc tbl
          (normalizeChars cc text.data ++ [' '])
          (normalizeChars cc text.data ++ [' ']).length 0 [] false ' '),
          trimChars cc g = id g := fun g hg =>
        trim_fixed_ends cc g (Or.inr ⟨(hG g hg).2.2.1, (hG g hg).2.2.2⟩)
      rw [List.map_congr_left h2, List.map_id]
    have hfilter : ((dropEmptyLast (futureFrags cc tbl
          (normalizeChars cc text.data ++ [' '])
          (normalizeChars cc text.data ++ [' ']).length 0 [] false ' ')).map
          (fun s => String.mk s)).filter (fun s => !s.isEmpty) =
        (dropEmptyLast (futureFrags cc tbl (normalizeChars cc text.data ++ [' '])
          (normalizeChars cc text.data ++ [' ']).length 0 [] false ' ')).map
          (fun s => String.mk s) := by
      apply List.filter_eq_self.mpr
      intro s hs
      obtain ⟨g, hg, rfl⟩ := List.mem_map.mp hs
      rw [mk_isEmpty_false g (hG g hg).1]
      rfl
    have hS : split cc tbl text =
        (dropEmptyLast (futureFrags cc tbl (normalizeChars cc text.data ++ [' '])
          (normalizeChars cc text.data ++ [' ']).length 0 [] false ' ')).map
          (fun s => String.mk s) := by
      simp only [split]
      rw [if_neg htext, hraw, htrim, hfilter]
    rw [hS]
    have hinter : String.intercalate " " ((dropEmptyLast (futureFrags cc tbl
          (normalizeChars cc text.data ++ [' '])
          (normalizeChars cc text.data ++ [' ']).length 0 [] false ' ')).map
          (fun s => String.mk s)) =
        String.mk (joinFrags (dropEmptyLast (futureFrags cc tbl
          (normalizeChars cc text.data ++ [' '])
          (normalizeChars cc text.data ++ [' ']).length 0 [] false ' '))) := by
      rw [show (" " : String) = String.mk [' '] from rfl]
      exact intercalate_mk _
    rw [hinter]
    by_cases hGnil : dropEmptyLast (futureFrags cc tbl
        (normalizeChars cc text.data ++ [' '])
        (normalizeChars cc text.data ++ [' ']).length 0 [] false ' ') = []
    · rw [hGnil]
      rfl
    · exact resplit_G cc tbl Hsp Hpar Ht1 Ht2 Ht3 (normalizeChars cc text.data) _
        rfl hG hGnil

/-- Witness for C7 at the Rust character classes, the empty prefix table and
a concrete two-sentence text. -/
theorem split_idempotent_witness :
    rustCC.isWhitespace ' ' = true ∧ rustCC.isWhitespace ')' = false ∧
    rustCC.isWhitespace '.' = false ∧ rustCC.isWhitespace '?' = false ∧
    rustCC.isWhitespace '!' = false ∧
    split rustCC [] (String.intercalate " " (split rustCC [] "Hey. Now.")) =
      split rustCC [] "Hey. Now." :=
  ⟨by decide, by decide, by decide, by decide, by decide,
    split_idempotent rustCC [] (by decide) (by decide) (by decide) (by decide)
      (by decide) "Hey. Now."⟩
